import Mathlib

/-!
# Verification of the Jadep dependency-inserter against its specification

This file gives a shallow embedding, in Lean 4, of the parts of the
`tools_jvm_autodeps` ("Jadep") Go code base that the specification's claims
are about, and settles each claim against it.

Modelling conventions:
* Go strings are modelled as `List Char` (`Str`), and the Go standard-library
  string functions used by the code (`strings.HasPrefix`, `strings.Index`,
  `strings.TrimPrefix`, `strings.TrimLeft`, `strings.Count`,
  `strings.LastIndexByte`, `path.Base`, ...) are re-defined below on that
  representation, faithfully to their documented Go semantics for the
  arguments the code passes them.
* Characters are ASCII; the Go `unicode` class predicates used by the code
  (`unicode.IsUpper`, letters/digits) are modelled by their ASCII restriction.
* Fallible Go functions returning `(T, error)` are modelled as `Option T`
  (the error messages themselves play no role in any claim).
* Go maps are modelled as association lists with first-match lookup;
  writing a key is modelled by prepending (so lookup sees the new value),
  and map iteration uses list order (a determinisation of Go's unspecified
  iteration order; no claim below depends on the iteration order).
-/

set_option maxHeartbeats 1000000

namespace Jadep

/-- Go strings, modelled as lists of (ASCII) characters. -/
abbrev Str := List Char

/-- Shorthand to write a modelled Go string from a Lean string literal. -/
def str (s : String) : Str := s.data

/-- First-match association-list lookup (models Go map read `m[k]`,
`none` standing for "key absent"). -/
def alookup {α β : Type} [DecidableEq α] : List (α × β) → α → Option β
  | [], _ => none
  | (k, v) :: rest, key => if k = key then some v else alookup rest key

/-- `strings.HasPrefix s pre` (Go). -/
def startsWith : Str → Str → Bool
  | _, [] => true
  | [], _ :: _ => false
  | c :: s, p :: ps => c == p && startsWith s ps

/-- `strings.HasSuffix s suf` (Go). -/
def hasSuffix (s suf : Str) : Bool := startsWith s.reverse suf.reverse

/-- `strings.TrimPrefix s pre` (Go): drop `pre` if it is a leading part of `s`. -/
def trimLeading (s pre : Str) : Str :=
  if startsWith s pre then s.drop pre.length else s

/-- `strings.TrimSuffix s suf` (Go). -/
def trimTrailing (s suf : Str) : Str :=
  if hasSuffix s suf then s.take (s.length - suf.length) else s

/-- `strings.TrimLeft s "/"` (Go): remove all leading `'/'` characters. -/
def trimAllLeadingSlash : Str → Str
  | [] => []
  | c :: cs => if c = '/' then trimAllLeadingSlash cs else c :: cs

/-- Index (0-based) of the first occurrence of `sub` in `s`, if any. -/
def firstIdx : Str → Str → Option Nat
  | [], sub => if sub = [] then some 0 else none
  | c :: cs, sub =>
      if startsWith (c :: cs) sub then some 0
      else (firstIdx cs sub).map (· + 1)

/-- `strings.Index s sub` (Go): first index of `sub` in `s`, `-1` if absent.
Also models `strings.IndexByte` (with a one-character `sub`). -/
def goIndex (s sub : Str) : Int :=
  match firstIdx s sub with
  | some n => (n : Int)
  | none => -1

/-- `strings.LastIndexByte s b` (Go): last index of `b` in `s`, `-1` if absent. -/
def lastIndexByte : Str → Char → Int
  | [], _ => -1
  | c :: cs, b =>
      let r := lastIndexByte cs b
      if r ≥ 0 then r + 1 else if c = b then 0 else -1

/-- `strings.Contains s sub` (Go). -/
def goContains (s sub : Str) : Bool := (firstIdx s sub).isSome

/-- Scanner for `goCount`: `skip` is the number of positions still inside the
previously counted (non-overlapping) occurrence, where no new match may start. -/
def goCountScan : Str → Str → Nat → Nat
  | [], _, _ => 0
  | _ :: cs, sub, Nat.succ k => goCountScan cs sub k
  | c :: cs, sub, 0 =>
      if startsWith (c :: cs) sub then goCountScan cs sub (sub.length - 1) + 1
      else goCountScan cs sub 0

/-- `strings.Count s sub` (Go): number of non-overlapping occurrences of `sub`
in `s`, scanning from the left; `len(s)+1` for the empty `sub`. -/
def goCount (s sub : Str) : Nat :=
  if sub = [] then s.length + 1
  else goCountScan s sub 0

/-- `strings.Replace s "/" "." -1` (Go), for the one-character arguments the
code uses: replace every `'/'` by `'.'`. -/
def replaceSlashByDot (s : Str) : Str :=
  s.map fun c => if c = '/' then '.' else c

/-- Helper for `pathBase`: strip all trailing `'/'` characters. -/
def dropTrailingSlashes (s : Str) : Str :=
  (trimAllLeadingSlash s.reverse).reverse

/-- `path.Base` (Go): last element of a slash-separated path. -/
def pathBase (s : Str) : Str :=
  if s = [] then str "."
  else
    let s1 := dropTrailingSlashes s
    let s2 := s1.drop ((lastIndexByte s1 '/' + 1).toNat)
    if s2 = [] then str "/" else s2

/-! ## bazel/bazel.go : labels -/

/-- A Bazel label (`type Label string` in bazel/bazel.go). -/
abbrev Label := Str

/-- `Label.Split` (bazel/bazel.go): split a label into its package-name and
rule-name parts. -/
def LabelSplit (l : Label) : Str × Str :=
  let s := trimLeading l (str "//")
  let i := goIndex s (str ":")
  if i = -1 then (s, s.drop ((lastIndexByte s '/' + 1).toNat))
  else (s.take i.toNat, s.drop (i.toNat + 1))

/-- The validating tail of `ParseAbsoluteLabel`, after `pkg` and `name` are
computed: reject a package with more than one `//`, a name containing `//`
or `:`, and assemble the label. -/
def mkParsedLabel (pkg name : Str) : Option Label :=
  if goCount pkg (str "//") > 1 then none
  else if goIndex name (str "//") ≠ -1 then none
  else if goIndex name (str ":") ≠ -1 then none
  else if startsWith pkg (str "@") then some (pkg ++ str ":" ++ name)
  else some (str "//" ++ pkg ++ str ":" ++ name)

/-- The body of `ParseAbsoluteLabel` on the slash-trimmed string: split at the
first colon, or take the path base of the whole string when there is none. -/
def parseAbsoluteBody (t : Str) : Option Label :=
  if goIndex t (str ":") < 0 then mkParsedLabel t (pathBase t)
  else mkParsedLabel (t.take ((goIndex t (str ":")).toNat))
    (t.drop ((goIndex t (str ":")).toNat + 1))

/-- `ParseAbsoluteLabel` (bazel/bazel.go). Errors are modelled as `none`. -/
def ParseAbsoluteLabel (s : Str) : Option Label :=
  if ¬ (startsWith s (str "//") ∨ startsWith s (str "@")) then none
  else if goIndex s (str "//") < 0 then none
  else parseAbsoluteBody (trimAllLeadingSlash s)

/-- `ParseRelativeLabel` (bazel/bazel.go). Errors are modelled as `none`.
The label built in the relative case strips one leading colon from `s`. -/
def ParseRelativeLabel (pkg s : Str) : Option Label :=
  if startsWith s (str "//") ∨ startsWith s (str "@") then ParseAbsoluteLabel s
  else if goCount pkg (str "//") > 1 then none
  else if s = [] then none
  else if goIndex s (str ":") > 0 then none
  else if startsWith pkg (str "@") then
    some (pkg ++ str ":" ++ (if startsWith s (str ":") then s.drop 1 else s))
  else some (str "//" ++ pkg ++ str ":" ++ (if startsWith s (str ":") then s.drop 1 else s))

/-! ## bazel/bazel.go : rules, packages, package groups -/

/-- A value of Go's `map[string]interface{}` attribute map that the code ever
downcasts: `string`, `[]string`, `bool`, `int`, or `bazel.UnknownAttributeValue`. -/
inductive AttrValue : Type
  | strVal (s : Str)
  | strListVal (l : List Str)
  | boolVal (b : Bool)
  | intVal (i : Int)
  | unknownVal
deriving DecidableEq

/-- `bazel.Rule`: kind (`Schema`), containing package (`PkgName`) and the
attribute map (`Attrs`, association list modelling a Go map). -/
structure Rule : Type where
  Schema : Str
  PkgName : Str
  Attrs : List (Str × AttrValue)
deriving DecidableEq

/-- `bazel.NewRule`: fills in the `name` attribute. -/
def NewRule (schema pkgName ruleName : Str) (attributes : List (Str × AttrValue)) : Rule :=
  ⟨schema, pkgName, (str "name", AttrValue.strVal ruleName) :: attributes⟩

/-- `Rule.StringListAttr`: `[]string` view of an attribute; empty list on a
missing attribute or a type mismatch. -/
def StringListAttr (r : Rule) (attrName : Str) : List Str :=
  match alookup r.Attrs attrName with
  | some (AttrValue.strListVal l) => l
  | _ => []

/-- `Rule.LabelListAttr`: parse each string of the attribute relative to the
rule's package, silently discarding entries that fail to parse. -/
def LabelListAttr (r : Rule) (attrName : Str) : List Label :=
  (StringListAttr r attrName).filterMap fun s => ParseRelativeLabel r.PkgName s

/-- `Rule.StrAttr` with default `""`. -/
def StrAttr (r : Rule) (attrName : Str) : Str :=
  match alookup r.Attrs attrName with
  | some (AttrValue.strVal s) => s
  | _ => []

/-- `Rule.LabelAttr`: parse a string attribute as a label relative to the
rule's package; errors (non-string value, parse failure) are `none`. -/
def LabelAttr (r : Rule) (attrName : Str) : Option Label :=
  match alookup r.Attrs attrName with
  | some (AttrValue.strVal v) => ParseRelativeLabel r.PkgName v
  | _ => none

/-- `Rule.Name`: the `name` attribute (`""` when absent or not a string). -/
def RuleName (r : Rule) : Str := StrAttr r (str "name")

/-- `Rule.Label`: the rule's label derived from its package and name. -/
def RuleLabel (r : Rule) : Label :=
  if startsWith r.PkgName (str "@") then r.PkgName ++ str ":" ++ RuleName r
  else str "//" ++ r.PkgName ++ str ":" ++ RuleName r

/-- `bazel.PackageGroup`. -/
structure PackageGroup : Type where
  Specs : List Str
  Includes : List Label
deriving DecidableEq

/-- `bazel.Package`. -/
structure Package : Type where
  Path : Str
  DefaultVisibility : List Label
  Files : List (Str × Str)
  Rules : List (Str × Rule)
  PackageGroups : List (Str × PackageGroup)
deriving DecidableEq

/-! ## filter/filter.go -/

/-- `filter.JavaDependencyRuleKinds`. -/
def JavaDependencyRuleKinds (kind : Str) : Bool :=
  kind = str "android_library" ∨ kind = str "java_import" ∨
  kind = str "java_library" ∨ kind = str "java_lite_proto_library" ∨
  kind = str "java_mutable_proto_library" ∨ kind = str "java_plugin" ∨
  kind = str "java_proto_library" ∨ kind = str "java_wrap_cc" ∨
  kind = str "proto_library"

/-- `filter.JavaEditableRuleKinds`. -/
def JavaEditableRuleKinds (kind : Str) : Bool :=
  kind = str "android_binary" ∨ kind = str "android_library" ∨
  kind = str "android_local_test" ∨ kind = str "android_robolectric_test" ∨
  kind = str "android_test" ∨ kind = str "java_binary" ∨
  kind = str "java_library" ∨ kind = str "java_plugin" ∨
  kind = str "java_test"

/-- `filter.IsValidDependency` (filter/filter.go): reject kinds outside
`JavaDependencyRuleKinds` and rules tagged `avoid_dep`.
(Note: the function inspects only the kind and the `tags` attribute.) -/
def IsValidDependency (dep : Rule) : Bool :=
  if ¬ JavaDependencyRuleKinds dep.Schema then false
  else if (StringListAttr dep (str "tags")).any (fun tag => tag = str "avoid_dep") then false
  else true

/-- The tri-state `filter.tri`. -/
inductive Tri : Type
  | no
  | yes
  | unknown
deriving DecidableEq

/-- `filter.subPackageOf`. -/
def subPackageOf (subpackage pkg : Str) : Bool :=
  if subpackage = pkg then true
  else if pkg = [] then true
  else startsWith subpackage pkg && (subpackage.get? pkg.length == some '/')

/-- The entry loop of `filter.localVisibleTo`: scan the parsed `visibility`
labels in order; each entry may decide yes/no or pass to the next. -/
def localVisLoop (consPkgName : Str) : List Label → Tri
  | [] => Tri.unknown
  | v :: rest =>
      if v = str "//visibility:public" ∨ v = str "//visibility:legacy_public" then Tri.yes
      else if v = str "//visibility:private" then Tri.no
      else
        let p := LabelSplit v
        if p.2 = str "__pkg__" ∧ p.1 = consPkgName then Tri.yes
        else if p.2 = str "__subpackages__" ∧ subPackageOf consPkgName p.1 then Tri.yes
        else localVisLoop consPkgName rest

/-- `filter.localVisibleTo` (filter/filter.go): decide visibility of `dep`
from package `consPkgName` without loading packages. -/
def localVisibleTo (dep : Rule) (consPkgName : Str) : Tri :=
  if consPkgName = dep.PkgName ∨
      trimLeading consPkgName (str "javatests/") = trimLeading dep.PkgName (str "java/") then
    Tri.yes
  else
    let vis := LabelListAttr dep (str "visibility")
    if vis.length = 0 then Tri.no
    else localVisLoop consPkgName vis

/-! ## Spec-side definitions for claim C5 (visibility local phase)

These two definitions are written from the specification's words (not from the
code), for the refinement comparison that claim C5 asks for. -/

/-- The spec's subpackage relation: "P is a subpackage of Q (equals Q, or has
`Q/` as a prefix, or Q is empty)". -/
def specSubpackageOf (P Q : Str) : Bool :=
  P = Q ∨ startsWith P (Q ++ str "/") ∨ Q = []

/-- Scan of the visibility entries per the spec's table: public/legacy_public
give yes, private gives no, `//Q:__pkg__` with Q = P gives yes,
`//Q:__subpackages__` with P a subpackage of Q gives yes, a list with no
deciding entry is undecided. -/
def specVisScan (P : Str) : List Label → Tri
  | [] => Tri.unknown
  | v :: rest =>
      if v = str "//visibility:public" ∨ v = str "//visibility:legacy_public" then Tri.yes
      else if v = str "//visibility:private" then Tri.no
      else
        let q := LabelSplit v
        if q.2 = str "__pkg__" ∧ q.1 = P then Tri.yes
        else if q.2 = str "__subpackages__" ∧ specSubpackageOf P q.1 then Tri.yes
        else specVisScan P rest

/-- Claim C5's local-phase table, exactly as the claim states it: yes when P
equals R's package or is its `javatests/`-of-`java/` mirror; no on an empty
visibility list; otherwise decided by the entry scan. -/
def claimLocalVisibleTo (dep : Rule) (P : Str) : Tri :=
  if P = dep.PkgName ∨
      (startsWith dep.PkgName (str "java/") ∧
        P = str "javatests/" ++ trimLeading dep.PkgName (str "java/")) then Tri.yes
  else
    let vis := LabelListAttr dep (str "visibility")
    if vis.length = 0 then Tri.no
    else specVisScan P vis

/-- The amended local-phase table: identical to `claimLocalVisibleTo` except
that the first condition holds whenever P and R's package agree after
stripping an optional leading `javatests/` from P and an optional leading
`java/` from R's package. -/
def amendedLocalVisibleTo (dep : Rule) (P : Str) : Tri :=
  if P = dep.PkgName ∨
      trimLeading P (str "javatests/") = trimLeading dep.PkgName (str "java/") then Tri.yes
  else
    let vis := LabelListAttr dep (str "visibility")
    if vis.length = 0 then Tri.no
    else specVisScan P vis

/-- The rule of scenario E2: `//y:Dep` with visibility `["//x:__pkg__"]`. -/
def e2Rule : Rule :=
  NewRule (str "java_library") (str "y") (str "Dep")
    [(str "visibility", AttrValue.strListVal [str "//x:__pkg__"])]

/-- The deprecated rule of the unit test `TestIsValidDependency`
("don't allow deprecated rules", src/filter/filter_test.go): a
`java_library` carrying a `deprecation` attribute. -/
def deprecatedRule : Rule :=
  ⟨str "java_library", str "x", [(str "deprecation", AttrValue.strVal (str "do not use this rule"))]⟩

/-! ## listclassesinjar/listclassesinjar.go -/

/-- `listclassesinjar.List`, as a function of the archive's entry names (the
ZIP reading itself is I/O and out of scope; `r.File` becomes the input list).
The loop keeps an entry unless it contains `$`, lacks the `.class` suffix, or
ends in `/package-info.class`, and maps a kept name by stripping `.class` and
turning `/` into `.`. -/
def ListClassesInJar : List Str → List Str
  | [] => []
  | fn :: rest =>
      if goContains fn (str "$") ∨ ¬ hasSuffix fn (str ".class") ∨
          hasSuffix fn (str "/package-info.class") then
        ListClassesInJar rest
      else replaceSlashByDot (trimTrailing fn (str ".class")) :: ListClassesInJar rest

/-- The E5 archive of the spec, in archive order. -/
def e5Entries : List Str :=
  [str "com/foo/Bar.class", str "com/foo/Bar$Inner.class", str "META-INF/MANIFEST.MF",
   str "com/google/common/truth/package-info.class", str "com/Zoo.class"]

/-- Claim C8's keep-predicate, written from the spec's words: name ends in
`.class`, contains no `$`, and does not end in `/package-info.class`. -/
def specKeepsEntry (fn : Str) : Bool :=
  hasSuffix fn (str ".class") && !goContains fn (str "$") &&
    !hasSuffix fn (str "/package-info.class")

/-! ## jadep/compat/compat.go : ExtractClassNameFromQualifiedName -/

/-- ASCII model of `unicode.IsUpper`. -/
def isUpperA (c : Char) : Bool := 'A' ≤ c && c ≤ 'Z'

/-- ASCII model of `unicode.IsOneOf(Digit, Number, Letter)`. -/
def isLetterOrDigitA (c : Char) : Bool :=
  isUpperA c || ('a' ≤ c && c ≤ 'z') || ('0' ≤ c && c ≤ '9')

/-- `compat.isLowerCase`: no character of `s` is upper-case. -/
def isLowerCase (s : Str) : Bool := s.all fun c => !isUpperA c

/-- `compat.looksLikeSimpleClassName`: non-empty, first character upper-case,
remaining characters letters or digits (i.e. `^[A-Z][A-Za-z0-9]*$` in ASCII). -/
def looksLikeSimpleClassName : Str → Bool
  | [] => false
  | c :: rest => isUpperA c && rest.all isLetterOrDigitA

/-- `strings.Join l "."` (Go). -/
def goJoinDot : List Str → Str
  | [] => []
  | [x] => x
  | x :: xs => x ++ str "." ++ goJoinDot xs

/-- The loop of `compat.ExtractClassNameFromQualifiedName`, with the
accumulated `result` slice and the current index. -/
def extractLoop (result : List Str) (i : Nat) : List Str → Str × Int
  | [] => ([], -1)
  | txt :: rest =>
      let result1 := result ++ [txt]
      if looksLikeSimpleClassName txt then (goJoinDot result1, (i : Int))
      else if isLowerCase txt then extractLoop result1 (i + 1) rest
      else ([], -1)

/-- `compat.ExtractClassNameFromQualifiedName`. -/
def ExtractClassNameFromQualifiedName (parts : List Str) : Str × Int :=
  extractLoop [] 0 parts

/-! ## pkgloading.go : the caching loader

`CachingLoader.Load` takes the mutex, performs lookup-or-insert for every
requested key (collecting the missing ones as `work`), releases the mutex,
invokes the underlying loader once with `work` (only when non-empty), fills
the fresh entries with the response value and the batch error, then reads the
entry of every requested key.  Because the set of keys an underlying call
receives is computed entirely inside the mutex-guarded section, a history of
possibly concurrent `Load` calls is faithfully modelled by the sequence of
those critical sections: `cachingLoad` below executes one call atomically,
and quantifying over all call sequences covers all reachable histories. -/

/-- A cache entry (`pkgloading.entry` after its `ready` channel closed): the
package from the batch's response (if present) and the batch's error. -/
structure CacheEntry : Type where
  value : Option Package
  err : Option Str
deriving DecidableEq

/-- The state of a `CachingLoader` plus the record of every invocation of the
wrapped underlying loader (argument lists, in order). -/
structure CLState : Type where
  cache : List (Str × CacheEntry)
  calls : List (List Str)

/-- The keys present in the cache. -/
def cacheKeys (c : List (Str × CacheEntry)) : List Str := c.map Prod.fst

/-- The lookup-or-insert loop over the requested `packages`: the keys not yet
known, first occurrence only (these become `work`; `known` grows as entries
are inserted). -/
def freshKeys (known : List Str) : List Str → List Str
  | [] => []
  | p :: ps => if p ∈ known then freshKeys known ps else p :: freshKeys (p :: known) ps

/-- The behaviour of the wrapped underlying loader: from the history of its
previous invocations and the requested packages, the response map and the
error (`none` = nil error). -/
def LoaderOracle : Type := List (List Str) → List Str → List (Str × Package) × Option Str

/-- One `CachingLoader.Load` call: compute `work`, invoke the underlying
loader when `work` is non-empty, cache an entry per `work` key carrying the
batch error, then assemble the result from the entries of all requested keys
(`nil` map and a non-nil error when any entry carries an error). -/
def cachingLoad (oracle : LoaderOracle) (st : CLState) (packages : List Str) :
    CLState × (List (Str × Package) × Option Str) :=
  let work := freshKeys (cacheKeys st.cache) packages
  let st1 :=
    if work = [] then st
    else
      let r := oracle st.calls work
      { cache := st.cache ++ work.map fun p => (p, ⟨alookup r.1 p, r.2⟩),
        calls := st.calls ++ [work] }
  let entries := packages.filterMap fun p => (alookup st1.cache p).map fun e => (p, e)
  let outcome :=
    if entries.any fun pe => pe.2.err.isSome then
      ([], some (str "Errors when loading packages"))
    else (entries.filterMap fun pe => pe.2.value.map fun v => (pe.1, v), none)
  (st1, outcome)

/-- Run a sequence of `Load` calls starting from the empty cache. -/
def runLoads (oracle : LoaderOracle) (rss : List (List Str)) : CLState :=
  rss.foldl (fun st ps => (cachingLoad oracle st ps).1) ⟨[], []⟩

/-! ## jadeplib.go : MissingDeps -/

/-- `jadeplib.ClassName`. -/
abbrev ClassName := Str

/-- `jadeplib.deps`: the `deps` attribute of a rule parsed into labels
(membership in the returned list models the Go set). -/
def depsOf (rule : Rule) : List Label :=
  (StringListAttr rule (str "deps")).filterMap fun d => ParseRelativeLabel rule.PkgName d

/-- `jadeplib.alreadySatisfied`: a class is already satisfied when one of its
satisfying rules is the consuming rule itself or an existing dependency. -/
def alreadySatisfied (consumingRuleLabel : Label) (existingDeps : List Label)
    (satisfyingRules : List Rule) : Bool :=
  satisfyingRules.any fun r =>
    RuleLabel r = consumingRuleLabel ∨ RuleLabel r ∈ existingDeps

/-- The structural-filter phase of `MissingDeps` for one consuming rule
(orchestrator step 4): skip classes already satisfied, keep the candidates
passing `IsValidDependency`; a class gets an entry only when at least one
candidate was appended. -/
def candidatesForConsRule (consLbl : Label) (existingDeps : List Label)
    (resolved : List (ClassName × List Rule)) : List (ClassName × List Rule) :=
  resolved.filterMap fun cr =>
    if alreadySatisfied consLbl existingDeps cr.2 then none
    else
      match cr.2.filter IsValidDependency with
      | [] => none
      | l => some (cr.1, l)

/-- The visibility phase of `MissingDeps` for one class (steps 5-6): keep the
labels of the candidates that `visResult` declares visible; when none remain,
restore all pre-visibility candidates ("No rules left for class ... after
visibility filtering; returning all results."). -/
def visibleLabels (visResult : Rule → Str → Bool) (consPkgName : Str)
    (satisfyingRules : List Rule) : List Label :=
  let visible := (satisfyingRules.filter fun r => visResult r consPkgName).map RuleLabel
  if visible = [] then satisfyingRules.map RuleLabel else visible

/-- The per-consuming-rule result of `MissingDeps`, with the per-class
ranking of step 7 applied (`sortDependencies`). -/
def missingForConsRule (visResult : Rule → Str → Bool) (ranker : Label → Label → Bool)
    (consRule : Rule) (resolved : List (ClassName × List Rule)) :
    List (ClassName × List Label) :=
  (candidatesForConsRule (RuleLabel consRule) (depsOf consRule) resolved).map fun cs =>
    (cs.1, List.mergeSort (visibleLabels visResult consRule.PkgName cs.2) ranker)

/-- `jadeplib.MissingDeps`, parametrised by the resolver-pipeline output
`resolved` (what `resolveAll` produced), the visibility verdict `visResult`
(the map `filter.CheckVisibility` returned; pairs never present are `false`,
matching Go's map-read default), and the ranker (`config.DepsRanker.Less`;
Go's unstable `sort.Slice` is modelled by a merge sort, fixing one of the
permutations it may produce).  Consuming rules with no missing deps are
omitted from the result. -/
def MissingDeps (visResult : Rule → Str → Bool) (ranker : Label → Label → Bool)
    (rulesToFix : List Rule) (resolved : List (ClassName × List Rule)) :
    List (Rule × List (ClassName × List Label)) :=
  (rulesToFix.map fun consRule =>
      (consRule, missingForConsRule visResult ranker consRule resolved)).filter
    fun rm => rm.2 ≠ []

/-! ## jadep/bazeldepsresolver/bazeldepsresolver.go : the third-party resolver

`NewResolver` is modelled over a pure *world* function standing for the
caching loader: for a given package name it returns the same `Package` value
on every call, exactly as the caching loader returns the same cached object.
Rule identity, which in the Go code is pointer identity, is therefore value
identity here (distinct rules of a world are distinct values).  The
filesystem walk `allPackages` becomes the `dirs` parameter, and reading jar
archives (`listclassesinjar.List`, I/O) becomes the `jarContents` parameter. -/

/-- The loop of `pkgloading.distinctPkgs`, threading the seen-set. -/
def distinctPkgsLoop (seen : List Str) : List Label → List Str
  | [] => []
  | l :: ls =>
      if (LabelSplit l).1 ∈ seen then distinctPkgsLoop seen ls
      else (LabelSplit l).1 :: distinctPkgsLoop ((LabelSplit l).1 :: seen) ls

/-- `pkgloading.distinctPkgs`: the unique packages mentioned in labels. -/
def distinctPkgs (labels : List Label) : List Str := distinctPkgsLoop [] labels

/-- `pkgloading.LoadRules` over a world: load the distinct packages and look
each label's rule up in its package. -/
def LoadRules (world : List Str → List (Str × Package)) (labels : List Label) :
    List (Label × Rule) × List (Str × Package) :=
  if labels = [] then ([], [])
  else
    let pkgs := world (distinctPkgs labels)
    (labels.filterMap fun l =>
        (alookup pkgs (LabelSplit l).1).bind fun pkg =>
          (alookup pkg.Rules (LabelSplit l).2).map fun r => (l, r),
      pkgs)

/-- `filepath.Join a b` for the clean, non-empty arguments used here. -/
def pathJoin (a b : Str) : Str := a ++ str "/" ++ b

/-- `bazeldepsresolver.listJar`: record every class of every jar of a
`java_import` rule as owned by that rule (map writes modelled by prepending). -/
def listJarModel (jarContents : Str → List ClassName) (rule : Rule)
    (pkgs : List (Str × Package)) (classToRule : List (ClassName × Rule)) :
    List (ClassName × Rule) :=
  match alookup pkgs rule.PkgName with
  | none => classToRule
  | some pkg =>
      (StringListAttr rule (str "jars")).foldl
        (fun ctr jar =>
          (jarContents (pathJoin pkg.Path jar)).foldl (fun ctr c => (c, rule) :: ctr) ctr)
        classToRule

/-- The out-edges a rule contributes to `NewResolver`'s BFS: `exports` of a
`java_library`, `actual` of a `bind`. -/
def bfsCandidates (rule : Rule) : List Label :=
  if rule.Schema = str "java_library" then LabelListAttr rule (str "exports")
  else if rule.Schema = str "bind" then
    match LabelAttr rule (str "actual") with
    | some l => [l]
    | none => []
  else []

/-- Adding one rule's candidate labels: labels not yet seen are marked seen,
queued for loading, and assigned `rule` as their prospective parent (first
visit wins — a label already seen is skipped). -/
def bfsAdd (rule : Rule) : List Label → List Label → List Label → List (Label × Rule) →
    List Label × List Label × List (Label × Rule)
  | [], seen, toLoad, parentLabels => (seen, toLoad, parentLabels)
  | c :: cs, seen, toLoad, parentLabels =>
      if c ∈ seen then bfsAdd rule cs seen toLoad parentLabels
      else bfsAdd rule cs (c :: seen) (toLoad ++ [c]) (parentLabels ++ [(c, rule)])

/-- The per-layer collection loop of one BFS iteration: run `listJar` for
`java_import` rules and gather every rule's unseen candidates. -/
def bfsGather (jarContents : Str → List ClassName) (pkgs : List (Str × Package)) :
    List Rule → List Label → List Label → List (Label × Rule) → List (ClassName × Rule) →
    List Label × List Label × List (Label × Rule) × List (ClassName × Rule)
  | [], seen, toLoad, parentLabels, ctr => (seen, toLoad, parentLabels, ctr)
  | rule :: rest, seen, toLoad, parentLabels, ctr =>
      let ctr1 := if rule.Schema = str "java_import" then
          listJarModel jarContents rule pkgs ctr else ctr
      let g := bfsAdd rule (bfsCandidates rule) seen toLoad parentLabels
      bfsGather jarContents pkgs rest g.1 g.2.1 g.2.2 ctr1

/-- The BFS construction state of `NewResolver`. -/
structure BFSState : Type where
  layer : List Rule
  seen : List Label
  parent : List (Rule × Rule)
  classToRule : List (ClassName × Rule)
  pkgs : List (Str × Package)

/-- One iteration of the `for len(layer) > 0` loop of `NewResolver`:
gather candidates, load the next layer's rules, merge the new packages, and
set the back-pointers (`parent[ru] = v`) for the labels that resolved. -/
def bfsStep (world : List Str → List (Str × Package))
    (jarContents : Str → List ClassName) (st : BFSState) : BFSState :=
  let g := bfsGather jarContents st.pkgs st.layer st.seen [] [] st.classToRule
  let lr := LoadRules world g.2.1
  let pkgs1 := lr.2.foldl (fun ps np => np :: ps) st.pkgs
  let np := g.2.2.1.foldl
    (fun (acc : List Rule × List (Rule × Rule)) uv =>
      match alookup lr.1 uv.1 with
      | some ru => (acc.1 ++ [ru], (ru, uv.2) :: acc.2)
      | none => acc)
    ([], st.parent)
  ⟨np.1, g.1, np.2, g.2.2.2, pkgs1⟩

/-- The BFS loop, with fuel standing in for the Go loop (each use below
supplies enough fuel to reach the exit condition `layer = []`). -/
def bfsRun (world : List Str → List (Str × Package))
    (jarContents : Str → List ClassName) : Nat → BFSState → BFSState
  | 0, st => st
  | fuel + 1, st =>
      if st.layer = [] then st
      else bfsRun world jarContents fuel (bfsStep world jarContents st)

/-- `bazeldepsresolver.NewResolver`: load every package under the third-party
directories, seed the BFS with all their rules, and return the parent map and
the class-to-rule map. -/
def NewResolver (world : List Str → List (Str × Package))
    (jarContents : Str → List ClassName) (dirs : List Str) (fuel : Nat) :
    List (Rule × Rule) × List (ClassName × Rule) :=
  let pkgs := world dirs
  let layer := pkgs.foldl (fun acc np => acc ++ np.2.Rules.map Prod.snd) []
  let st := bfsRun world jarContents fuel ⟨layer, [], [], [], pkgs⟩
  (st.parent, st.classToRule)

/-- One step of the parent walk in `Resolver.Resolve`
(`for r.parent[rule] != nil { rule = r.parent[rule] }`). -/
def resolveStep (parent : List (Rule × Rule)) (rule : Rule) : Rule :=
  match alookup parent rule with
  | some r => r
  | none => rule

/-- The parent walk of `Resolver.Resolve` after `k` iterations. -/
def resolveWalk (parent : List (Rule × Rule)) (rule : Rule) : Nat → Rule
  | 0 => rule
  | k + 1 => resolveStep parent (resolveWalk parent rule k)

/-- `//tp:a`, a third-party `java_library` exporting its sibling `:b`. -/
def cycleRuleA : Rule :=
  NewRule (str "java_library") (str "tp") (str "a")
    [(str "exports", AttrValue.strListVal [str ":b"])]

/-- `//tp:b`, a third-party `java_library` exporting its sibling `:a`. -/
def cycleRuleB : Rule :=
  NewRule (str "java_library") (str "tp") (str "b")
    [(str "exports", AttrValue.strListVal [str ":a"])]

/-- The third-party package `tp` holding the two mutually exporting rules. -/
def cyclePkg : Package :=
  ⟨str "tp", [], [], [(str "a", cycleRuleA), (str "b", cycleRuleB)], []⟩

/-- The world of the C7 failing input: a single third-party package `tp`. -/
def cycleWorld (ps : List Str) : List (Str × Package) :=
  if (str "tp") ∈ ps then [(str "tp", cyclePkg)] else []

/-- The parent map `NewResolver` constructs on the C7 failing input (fuel 3
is past the BFS exit: the second iteration finds every candidate already
seen and the third sees an empty layer). -/
def cycleParent : List (Rule × Rule) :=
  (NewResolver cycleWorld (fun _ => []) [str "tp"] 3).1

/-- Number of occurrences of `K` in a list of package names. -/
def countOcc (K : Str) : List Str → Nat
  | [] => 0
  | c :: cs => (if c = K then 1 else 0) + countOcc K cs

/-- How many times the underlying loader was asked for package `K` over a
call history. -/
def timesRequested (calls : List (List Str)) (K : Str) : Nat :=
  (calls.map fun c => countOcc K c).sum

/-! # Theorems

Everything below is a lemma or a claim theorem; no further definitions. -/

/-- `startsWith s (p ++ [c])` checks `p` and then the single character at
position `p.length`. -/
theorem startsWith_append_singleton (p : Str) (c : Char) (s : Str) :
    startsWith s (p ++ [c]) = (startsWith s p && s.get? p.length == some c) := by
  induction p generalizing s with
  | nil =>
      cases s with
      | nil => simp [startsWith]
      | cons e es => simp [startsWith, List.get?]
  | cons d ps ih =>
      cases s with
      | nil => simp [startsWith]
      | cons e es =>
          simp only [List.cons_append, startsWith, List.append_eq, ih,
            List.length_cons, List.get?_cons_succ, Bool.and_assoc]

/-- The code's `subPackageOf` agrees with the spec's subpackage relation. -/
theorem subPackageOf_eq_spec (sub pkg : Str) :
    subPackageOf sub pkg = specSubpackageOf sub pkg := by
  unfold subPackageOf specSubpackageOf
  have hs : (str "/") = ['/'] := rfl
  by_cases h1 : sub = pkg
  · simp [h1]
  · by_cases h2 : pkg = []
    · simp [h1, h2]
    · simp only [h1, h2, if_false, hs, startsWith_append_singleton]
      rw [Bool.eq_iff_iff]
      simp

/-- The code's entry loop agrees with the spec's entry scan. -/
theorem localVisLoop_eq_specVisScan (P : Str) (l : List Label) :
    localVisLoop P l = specVisScan P l := by
  induction l with
  | nil => rfl
  | cons v rest ih =>
      unfold localVisLoop specVisScan
      simp only [subPackageOf_eq_spec, ih]

/-- C5 counterexample: the claim's table is wrong about the code. A rule in
package `x` with no `visibility` attribute is decided *no* per the claim's
table for consumer `javatests/x` (no equality, no `java/` mirror, empty
visibility list), yet `localVisibleTo` answers yes, because the code strips
the `javatests/` and `java/` prefixes unconditionally before comparing
packages. -/
theorem localVisibleTo_differs_from_claim_table :
    localVisibleTo (NewRule (str "java_library") (str "x") (str "Dep") [])
        (str "javatests/x")
      ≠ claimLocalVisibleTo (NewRule (str "java_library") (str "x") (str "Dep") [])
        (str "javatests/x") := by
  decide

/-- C5 (amended): `localVisibleTo` decides, for every rule R and consumer
package P, without any package load, exactly per the spec's table with the
first row amended to: yes when P and R's package are equal after stripping an
optional leading `javatests/` from P and an optional leading `java/` from R's
package.  In particular visibility `["//x:__pkg__"]` gives yes for consumer
`x` and undecided for consumer `x/subx` (scenario E2). -/
theorem localVisibleTo_eq_amended_table :
    (∀ (dep : Rule) (P : Str), localVisibleTo dep P = amendedLocalVisibleTo dep P) ∧
    localVisibleTo e2Rule (str "x") = Tri.yes ∧
    localVisibleTo e2Rule (str "x/subx") = Tri.unknown := by
  refine ⟨fun dep P => ?_, by decide, by decide⟩
  unfold localVisibleTo amendedLocalVisibleTo
  simp only [localVisLoop_eq_specVisScan]

/-- C1: `IsValidDependency` does reject an `avoid_dep` tag, but it *accepts* a
rule whose only flaw is a `deprecation` attribute — the function never looks
at `deprecation`, although its own unit test ("don't allow deprecated rules")
demands `false` for `deprecatedRule`.  Hence candidates with a deprecation
attribute are not dropped by the structural filter, contradicting the claim
and the test. -/
theorem isValidDependency_accepts_deprecated :
    IsValidDependency deprecatedRule = true ∧
    IsValidDependency
      ⟨str "java_library", str "x",
        [(str "tags", AttrValue.strListVal [str "avoid_dep"])]⟩ = false := by
  decide

/-- The spec's keep-predicate is the negation of the loop's skip condition. -/
theorem specKeepsEntry_iff (fn : Str) :
    specKeepsEntry fn = true ↔
      ¬ (goContains fn (str "$") ∨ ¬ hasSuffix fn (str ".class") ∨
          hasSuffix fn (str "/package-info.class")) := by
  unfold specKeepsEntry
  simp only [Bool.and_eq_true, Bool.not_eq_true']
  constructor
  · rintro ⟨⟨h1, h2⟩, h3⟩
    simp [h1, h2, h3]
  · intro h
    push_neg at h
    obtain ⟨h1, h2, h3⟩ := h
    simp only [Bool.not_eq_true] at h1 ⊢
    exact ⟨⟨h2, h1⟩, by simpa using h3⟩

/-- C8 counterexample: on the E5 archive the code does *not* return the
sorted list `[com.Zoo, com.foo.Bar]` (it preserves archive order). -/
theorem listClassesInJar_e5_not_sorted :
    ListClassesInJar e5Entries ≠ [str "com.Zoo", str "com.foo.Bar"] := by
  decide

/-- C8 (amended): `List` keeps exactly the archive entries whose name ends in
`.class`, contains no `$`, and does not end in `/package-info.class`, mapping
each kept name to a class name by replacing `/` with `.` and stripping the
`.class` suffix, *in archive order* (no sorting); on the E5 archive the
result is `[com.foo.Bar, com.Zoo]`. -/
theorem listClassesInJar_keeps_exactly :
    (∀ entries : List Str,
        ListClassesInJar entries =
          (entries.filter specKeepsEntry).map
            (fun fn => replaceSlashByDot (trimTrailing fn (str ".class")))) ∧
    ListClassesInJar e5Entries = [str "com.foo.Bar", str "com.Zoo"] := by
  refine ⟨fun entries => ?_, by decide⟩
  induction entries with
  | nil => rfl
  | cons fn rest ih =>
      rw [List.filter_cons]
      by_cases h : goContains fn (str "$") ∨ ¬ hasSuffix fn (str ".class") ∨
          hasSuffix fn (str "/package-info.class")
      · have hk : ¬ specKeepsEntry fn = true := fun hc => (specKeepsEntry_iff fn).1 hc h
        simp only [ListClassesInJar, if_pos h, hk, if_false, Bool.false_eq_true, ite_false, ih]
      · have hk : specKeepsEntry fn = true := (specKeepsEntry_iff fn).2 h
        simp only [ListClassesInJar, if_neg h, hk, ite_true, List.map_cons, ih]

/-- A part with no upper-case character cannot look like a simple class name. -/
theorem looksLike_false_of_lower (s : Str) (h : isLowerCase s = true) :
    looksLikeSimpleClassName s = false := by
  cases s with
  | nil => rfl
  | cons c rest =>
      unfold isLowerCase at h
      simp only [List.all_cons, Bool.and_eq_true, Bool.not_eq_true'] at h
      unfold looksLikeSimpleClassName
      simp [h.1]

/-- The walk of `extractLoop` in the successful case: if position `k` holds
the first part matching the class-name shape and all earlier parts are
lower-case, the loop stops at `k`. -/
theorem extractLoop_found (parts : List Str) : ∀ (acc : List Str) (i0 k : Nat)
    (hk : k < parts.length),
    looksLikeSimpleClassName (parts.get ⟨k, hk⟩) = true →
    (∀ j (hj : j < k), isLowerCase (parts.get ⟨j, Nat.lt_trans hj hk⟩) = true) →
    extractLoop acc i0 parts = (goJoinDot (acc ++ parts.take (k + 1)), ((i0 + k : Nat) : Int)) := by
  induction parts with
  | nil => intro acc i0 k hk; exact absurd hk (Nat.not_lt_zero k)
  | cons txt rest ih =>
      intro acc i0 k hk hlook hlow
      cases k with
      | zero =>
          simp only [List.get] at hlook
          simp [extractLoop, hlook, List.take]
      | succ k1 =>
          have hlow0 : isLowerCase txt = true := hlow 0 (Nat.succ_pos k1)
          have hnlook : looksLikeSimpleClassName txt = false := looksLike_false_of_lower txt hlow0
          have hk1 : k1 < rest.length := Nat.lt_of_succ_lt_succ hk
          have step := ih (acc ++ [txt]) (i0 + 1) k1 hk1 hlook
            (fun j hj => hlow (j + 1) (Nat.succ_lt_succ hj))
          simp only [extractLoop, hnlook, Bool.false_eq_true, ite_false, hlow0, ite_true, step,
            List.take, List.append_assoc, List.singleton_append]
          congr 1
          omega

/-- The walk of `extractLoop` in the failing case: if no position holds a
class-name-shaped part preceded only by lower-case parts, the loop returns
`("", -1)`. -/
theorem extractLoop_none (parts : List Str) : ∀ (acc : List Str) (i0 : Nat),
    (∀ k (hk : k < parts.length),
        ¬ (looksLikeSimpleClassName (parts.get ⟨k, hk⟩) = true ∧
            ∀ j (hj : j < k), isLowerCase (parts.get ⟨j, Nat.lt_trans hj hk⟩) = true)) →
    extractLoop acc i0 parts = ([], -1) := by
  induction parts with
  | nil => intro acc i0 _; rfl
  | cons txt rest ih =>
      intro acc i0 hno
      have hnlook : ¬ looksLikeSimpleClassName txt = true := by
        intro hc
        exact hno 0 (Nat.succ_pos _) ⟨hc, fun j hj => absurd hj (Nat.not_lt_zero j)⟩
      by_cases hlow : isLowerCase txt = true
      · have hrest : ∀ k (hk : k < rest.length),
            ¬ (looksLikeSimpleClassName (rest.get ⟨k, hk⟩) = true ∧
                ∀ j (hj : j < k), isLowerCase (rest.get ⟨j, Nat.lt_trans hj hk⟩) = true) := by
          intro k hk hc
          refine hno (k + 1) (Nat.succ_lt_succ hk) ⟨hc.1, ?_⟩
          intro j hj
          cases j with
          | zero => exact hlow
          | succ j1 => exact hc.2 j1 (Nat.lt_of_succ_lt_succ hj)
        simp only [extractLoop, Bool.not_eq_true] at hnlook ⊢
        simp [hnlook, hlow, ih (acc ++ [txt]) (i0 + 1) hrest]
      · simp only [extractLoop, Bool.not_eq_true] at hnlook hlow ⊢
        simp [hnlook, hlow]

/-- C9: `ExtractClassNameFromQualifiedName` walks `parts` left-to-right; at
the first part of shape `^[A-Z][A-Za-z0-9]*$` it returns the parts up to and
including it joined with `.` together with that part's index; it walks past
all-lower-case parts; in every other situation (a part that neither matches
nor is lower-case, or no matching part at all) it returns `("", -1)`. -/
theorem extractClassName_spec (parts : List Str) :
    (∀ i (hi : i < parts.length),
        looksLikeSimpleClassName (parts.get ⟨i, hi⟩) = true →
        (∀ j (hj : j < i), isLowerCase (parts.get ⟨j, Nat.lt_trans hj hi⟩) = true) →
        ExtractClassNameFromQualifiedName parts = (goJoinDot (parts.take (i + 1)), (i : Int))) ∧
    ((∀ i (hi : i < parts.length),
        ¬ (looksLikeSimpleClassName (parts.get ⟨i, hi⟩) = true ∧
            ∀ j (hj : j < i), isLowerCase (parts.get ⟨j, Nat.lt_trans hj hi⟩) = true)) →
      ExtractClassNameFromQualifiedName parts = ([], -1)) := by
  constructor
  · intro i hi hlook hlow
    have h := extractLoop_found parts [] 0 i hi hlook hlow
    simpa [ExtractClassNameFromQualifiedName] using h
  · intro hno
    exact extractLoop_none parts [] 0 hno

/-- Witness for C9 at concrete inputs: `["com", "google", "Foo", "x"]`
extracts `("com.google.Foo", 2)`, and `["com", "gX", "wont", "Reach"]`
extracts `("", -1)` because `gX` neither matches the class-name shape nor is
lower-case. -/
theorem extractClassName_spec_witness :
    ExtractClassNameFromQualifiedName [str "com", str "google", str "Foo", str "x"] =
      (str "com.google.Foo", 2) ∧
    ExtractClassNameFromQualifiedName [str "com", str "gX", str "wont", str "Reach"] =
      ([], -1) := by
  constructor
  · have h := (extractClassName_spec [str "com", str "google", str "Foo", str "x"]).1 2
      (by decide) (by decide) (by decide)
    simpa using h
  · exact (extractClassName_spec [str "com", str "gX", str "wont", str "Reach"]).2 (by decide)

/-! ### Lemmas on the caching loader -/

/-- A key produced by `freshKeys` was not already known. -/
theorem freshKeys_not_known (ps : List Str) : ∀ (known : List Str) (p : Str),
    p ∈ freshKeys known ps → p ∉ known := by
  induction ps with
  | nil => intro known p h; cases h
  | cons q qs ih =>
      intro known p h
      unfold freshKeys at h
      by_cases hq : q ∈ known
      · rw [if_pos hq] at h
        exact ih known p h
      · rw [if_neg hq] at h
        rcases List.mem_cons.1 h with rfl | h2
        · exact hq
        · intro hk
          exact ih (q :: known) p h2 (List.mem_cons_of_mem q hk)

/-- `freshKeys` never yields a key twice. -/
theorem freshKeys_nodup (ps : List Str) : ∀ known : List Str, (freshKeys known ps).Nodup := by
  induction ps with
  | nil => intro known; exact List.nodup_nil
  | cons q qs ih =>
      intro known
      unfold freshKeys
      by_cases hq : q ∈ known
      · rw [if_pos hq]; exact ih known
      · rw [if_neg hq]
        refine List.nodup_cons.2 ⟨?_, ih (q :: known)⟩
        intro hmem
        exact freshKeys_not_known qs (q :: known) q hmem (List.mem_cons_self q known)

/-- Every requested key is either already known or among the fresh keys. -/
theorem mem_known_or_freshKeys (ps : List Str) : ∀ (known : List Str) (p : Str), p ∈ ps →
    p ∈ known ∨ p ∈ freshKeys known ps := by
  induction ps with
  | nil => intro known p h; cases h
  | cons q qs ih =>
      intro known p h
      unfold freshKeys
      by_cases hq : q ∈ known
      · rw [if_pos hq]
        rcases List.mem_cons.1 h with rfl | h2
        · exact Or.inl hq
        · exact ih known p h2
      · rw [if_neg hq]
        rcases List.mem_cons.1 h with rfl | h2
        · exact Or.inr (List.mem_cons_self _ _)
        · rcases ih (q :: known) p h2 with hk | hf
          · rcases List.mem_cons.1 hk with rfl | hk2
            · exact Or.inr (List.mem_cons_self _ _)
            · exact Or.inl hk2
          · exact Or.inr (List.mem_cons_of_mem _ hf)

/-- When every requested key is known, there are no fresh keys. -/
theorem freshKeys_eq_nil (ps : List Str) : ∀ known : List Str, (∀ p ∈ ps, p ∈ known) →
    freshKeys known ps = [] := by
  induction ps with
  | nil => intro known _; rfl
  | cons q qs ih =>
      intro known hall
      unfold freshKeys
      rw [if_pos (hall q (List.mem_cons_self q qs))]
      exact ih known fun p hp => hall p (List.mem_cons_of_mem q hp)

/-- `alookup` misses exactly the keys outside the association list. -/
theorem alookup_eq_none {α β : Type} [DecidableEq α] (l : List (α × β)) (k : α) :
    alookup l k = none ↔ k ∉ l.map Prod.fst := by
  induction l with
  | nil => simp [alookup]
  | cons kv rest ih =>
      obtain ⟨k1, v1⟩ := kv
      by_cases h : k1 = k
      · simp [alookup, h]
      · simp [alookup, h, ih, Ne.symm h]

/-- A hit in the first list survives appending. -/
theorem alookup_append_left {α β : Type} [DecidableEq α] (l1 l2 : List (α × β)) (k : α)
    (e : β) (h : alookup l1 k = some e) : alookup (l1 ++ l2) k = some e := by
  induction l1 with
  | nil => cases h
  | cons kv rest ih =>
      obtain ⟨k1, v1⟩ := kv
      by_cases hk : k1 = k
      · simpa [alookup, hk] using h
      · simp only [alookup, if_neg hk] at h
        rw [List.cons_append]
        simp only [alookup, if_neg hk]
        exact ih h

/-- A miss in the first list delegates to the second. -/
theorem alookup_append_right {α β : Type} [DecidableEq α] (l1 l2 : List (α × β)) (k : α)
    (h : alookup l1 k = none) : alookup (l1 ++ l2) k = alookup l2 k := by
  induction l1 with
  | nil => rfl
  | cons kv rest ih =>
      obtain ⟨k1, v1⟩ := kv
      by_cases hk : k1 = k
      · simp [alookup, hk] at h
      · simp only [alookup, hk, if_false] at h
        rw [List.cons_append]
        simp only [alookup, if_neg hk]
        exact ih h

/-- Looking up a member of `l` in the graph of `f` over `l` yields `f k`. -/
theorem alookup_map_graph {α β : Type} [DecidableEq α] (f : α → β) (l : List α) (k : α)
    (h : k ∈ l) : alookup (l.map fun p => (p, f p)) k = some (f k) := by
  induction l with
  | nil => cases h
  | cons q qs ih =>
      rcases List.mem_cons.1 h with rfl | h2
      · simp [alookup]
      · by_cases hq : q = k
        · subst hq; simp [alookup]
        · simp only [List.map_cons, alookup, if_neg hq]
          exact ih h2

/-- A successful lookup means the key is present. -/
theorem mem_keys_of_alookup {α β : Type} [DecidableEq α] (l : List (α × β)) (k : α) (e : β)
    (h : alookup l k = some e) : k ∈ l.map Prod.fst := by
  by_contra hk
  rw [(alookup_eq_none l k).2 hk] at h
  cases h

/-- The cache keys after a `Load` are the old keys followed by that call's
fresh keys. -/
theorem cacheKeys_cachingLoad (oracle : LoaderOracle) (st : CLState) (ps : List Str) :
    cacheKeys (cachingLoad oracle st ps).1.cache =
      cacheKeys st.cache ++ freshKeys (cacheKeys st.cache) ps := by
  show cacheKeys (if freshKeys (cacheKeys st.cache) ps = [] then st else _).cache = _
  by_cases h : freshKeys (cacheKeys st.cache) ps = []
  · simp [h]
  · rw [if_neg h]
    unfold cacheKeys
    rw [List.map_append, List.map_map]
    congr 1
    have : ∀ l : List Str,
        l.map (Prod.fst ∘ fun p =>
          (p, (⟨alookup (oracle st.calls (freshKeys (List.map Prod.fst st.cache) ps)).1 p,
            (oracle st.calls (freshKeys (List.map Prod.fst st.cache) ps)).2⟩ : CacheEntry))) = l := by
      intro l
      induction l with
      | nil => rfl
      | cons q qs ihq => simp only [List.map_cons, ihq, Function.comp_apply]
    exact this _

/-- The underlying-call record after a `Load`: unchanged when there was
nothing fresh, extended by the `work` list otherwise. -/
theorem calls_cachingLoad (oracle : LoaderOracle) (st : CLState) (ps : List Str) :
    (cachingLoad oracle st ps).1.calls =
      if freshKeys (cacheKeys st.cache) ps = [] then st.calls
      else st.calls ++ [freshKeys (cacheKeys st.cache) ps] := by
  show (if freshKeys (cacheKeys st.cache) ps = [] then st else _).calls = _
  by_cases h : freshKeys (cacheKeys st.cache) ps = []
  · simp [h]
  · rw [if_neg h, if_neg h]

/-- `countOcc` of an absent key is zero. -/
theorem countOcc_eq_zero (K : Str) (l : List Str) (h : K ∉ l) : countOcc K l = 0 := by
  induction l with
  | nil => rfl
  | cons q qs ih =>
      have hq : ¬ q = K := fun hc => h (hc ▸ List.mem_cons_self q qs)
      simp only [countOcc, if_neg hq, Nat.zero_add]
      exact ih fun hc => h (List.mem_cons_of_mem q hc)

/-- `countOcc` of a member of a duplicate-free list is one. -/
theorem countOcc_eq_one (K : Str) (l : List Str) (hd : l.Nodup) (h : K ∈ l) :
    countOcc K l = 1 := by
  induction l with
  | nil => cases h
  | cons q qs ih =>
      rcases List.mem_cons.1 h with rfl | h2
      · have hq : K ∉ qs := (List.nodup_cons.1 hd).1
        simp [countOcc, countOcc_eq_zero K qs hq]
      · have hq : ¬ q = K := by
          rintro rfl
          exact (List.nodup_cons.1 hd).1 h2
        simp only [countOcc, if_neg hq, Nat.zero_add]
        exact ih (List.nodup_cons.1 hd).2 h2

/-- One `Load` preserves the single-flight invariant: the underlying loader
has seen `K` zero times, or exactly once with `K` now cached. -/
theorem timesRequested_step (oracle : LoaderOracle) (st : CLState) (ps : List Str) (K : Str)
    (h : timesRequested st.calls K = 0 ∨
        (timesRequested st.calls K = 1 ∧ K ∈ cacheKeys st.cache)) :
    timesRequested (cachingLoad oracle st ps).1.calls K = 0 ∨
      (timesRequested (cachingLoad oracle st ps).1.calls K = 1 ∧
        K ∈ cacheKeys (cachingLoad oracle st ps).1.cache) := by
  rw [calls_cachingLoad, cacheKeys_cachingLoad]
  by_cases hnil : freshKeys (cacheKeys st.cache) ps = []
  · rw [if_pos hnil, hnil, List.append_nil]
    exact h
  · rw [if_neg hnil]
    have hsum : timesRequested (st.calls ++ [freshKeys (cacheKeys st.cache) ps]) K =
        timesRequested st.calls K + countOcc K (freshKeys (cacheKeys st.cache) ps) := by
      simp [timesRequested]
    by_cases hK : K ∈ freshKeys (cacheKeys st.cache) ps
    · have h0 : timesRequested st.calls K = 0 := by
        rcases h with h | ⟨_, hmem⟩
        · exact h
        · exact absurd hmem (freshKeys_not_known ps (cacheKeys st.cache) K hK)
      have hc1 : countOcc K (freshKeys (cacheKeys st.cache) ps) = 1 :=
        countOcc_eq_one K _ (freshKeys_nodup ps (cacheKeys st.cache)) hK
      exact Or.inr ⟨by rw [hsum, h0, hc1], List.mem_append_right _ hK⟩
    · have hc0 : countOcc K (freshKeys (cacheKeys st.cache) ps) = 0 :=
        countOcc_eq_zero K _ hK
      rcases h with h | ⟨h1, hmem⟩
      · exact Or.inl (by rw [hsum, h, hc0])
      · exact Or.inr ⟨by rw [hsum, h1, hc0], List.mem_append_left _ hmem⟩

/-- The single-flight invariant holds after any run continued from an
invariant-satisfying state. -/
theorem timesRequested_fold (oracle : LoaderOracle) (rss : List (List Str)) (K : Str) :
    ∀ st : CLState,
      timesRequested st.calls K = 0 ∨
        (timesRequested st.calls K = 1 ∧ K ∈ cacheKeys st.cache) →
      timesRequested (rss.foldl (fun st ps => (cachingLoad oracle st ps).1) st).calls K = 0 ∨
        (timesRequested (rss.foldl (fun st ps => (cachingLoad oracle st ps).1) st).calls K = 1 ∧
          K ∈ cacheKeys (rss.foldl (fun st ps => (cachingLoad oracle st ps).1) st).cache) := by
  induction rss with
  | nil => intro st h; exact h
  | cons ps rss ih =>
      intro st h
      exact ih _ (timesRequested_step oracle st ps K h)

/-- Every key requested in the processed batches (or already cached) ends up
cached. -/
theorem mem_cacheKeys_of_requested (oracle : LoaderOracle) (rss : List (List Str)) :
    ∀ (st : CLState) (p : Str),
      ((∃ rs ∈ rss, p ∈ rs) ∨ p ∈ cacheKeys st.cache) →
      p ∈ cacheKeys (rss.foldl (fun st ps => (cachingLoad oracle st ps).1) st).cache := by
  induction rss with
  | nil =>
      intro st p h
      rcases h with ⟨rs, hrs, _⟩ | hc
      · cases hrs
      · exact hc
  | cons ps rss ih =>
      intro st p h
      refine ih _ p ?_
      rcases h with ⟨rs, hrs, hp⟩ | hc
      · rcases List.mem_cons.1 hrs with rfl | h2
        · right
          rw [cacheKeys_cachingLoad]
          rcases mem_known_or_freshKeys rs (cacheKeys st.cache) p hp with h3 | h3
          · exact List.mem_append_left _ h3
          · exact List.mem_append_right _ h3
        · exact Or.inl ⟨rs, h2, hp⟩
      · right
        rw [cacheKeys_cachingLoad]
        exact List.mem_append_left _ hc

/-- C2: over every sequence of (possibly concurrent) `CachingLoader.Load`
calls, the wrapped underlying loader is asked for a package `K` at most once;
and a `Load` whose requested packages were all requested before performs no
underlying invocation at all (the call record is unchanged). -/
theorem cachingLoader_single_flight (oracle : LoaderOracle) (rss : List (List Str)) (K : Str) :
    timesRequested (runLoads oracle rss).calls K ≤ 1 ∧
    ∀ ps : List Str, (∀ p ∈ ps, ∃ rs ∈ rss, p ∈ rs) →
      (runLoads oracle (rss ++ [ps])).calls = (runLoads oracle rss).calls := by
  constructor
  · have h := timesRequested_fold oracle rss K ⟨[], []⟩ (Or.inl rfl)
    unfold runLoads
    rcases h with h | ⟨h, _⟩ <;> omega
  · intro ps hall
    unfold runLoads
    rw [List.foldl_append, List.foldl_cons, List.foldl_nil, calls_cachingLoad, if_pos]
    apply freshKeys_eq_nil
    intro p hp
    exact mem_cacheKeys_of_requested oracle rss ⟨[], []⟩ p (Or.inl (hall p hp))

/-- Witness for C2: requesting `k` twice calls the underlying loader at most
once, and the second `Load` (all of whose keys were requested before) leaves
the underlying call record unchanged. -/
theorem cachingLoader_single_flight_witness :
    timesRequested (runLoads (fun _ _ => ([], none)) [[str "k"], [str "k"]]).calls (str "k") ≤ 1 ∧
    (runLoads (fun _ _ => ([], none)) ([[str "k"]] ++ [[str "k"]])).calls =
      (runLoads (fun _ _ => ([], none)) [[str "k"]]).calls := by
  constructor
  · exact (cachingLoader_single_flight (fun _ _ => ([], none)) [[str "k"], [str "k"]] (str "k")).1
  · exact (cachingLoader_single_flight (fun _ _ => ([], none)) [[str "k"]] (str "k")).2
      [str "k"] (by decide)

/-- An existing cache entry survives a `Load` (entries are never overwritten:
insertions happen only for keys that missed). -/
theorem cache_entry_persists (oracle : LoaderOracle) (st : CLState) (ps : List Str)
    (K : Str) (e : CacheEntry) (h : alookup st.cache K = some e) :
    alookup (cachingLoad oracle st ps).1.cache K = some e := by
  show alookup (if freshKeys (cacheKeys st.cache) ps = [] then st else _).cache K = some e
  by_cases hnil : freshKeys (cacheKeys st.cache) ps = []
  · rw [if_pos hnil]
    exact h
  · rw [if_neg hnil]
    exact alookup_append_left _ _ K e h

/-- An existing cache entry survives any run of further `Load`s. -/
theorem cache_entry_persists_fold (oracle : LoaderOracle) (rss : List (List Str)) :
    ∀ (st : CLState) (K : Str) (e : CacheEntry), alookup st.cache K = some e →
      alookup (rss.foldl (fun st ps => (cachingLoad oracle st ps).1) st).cache K = some e := by
  induction rss with
  | nil => intro st K e h; exact h
  | cons ps rss ih =>
      intro st K e h
      exact ih _ K e (cache_entry_persists oracle st ps K e h)

/-- A key first requested in a batch is cached with that batch's response
value and, crucially, that batch's error. -/
theorem fresh_key_cached (oracle : LoaderOracle) (st : CLState) (ps : List Str) (K : Str)
    (hK : K ∈ freshKeys (cacheKeys st.cache) ps) :
    alookup (cachingLoad oracle st ps).1.cache K =
      some ⟨alookup (oracle st.calls (freshKeys (cacheKeys st.cache) ps)).1 K,
        (oracle st.calls (freshKeys (cacheKeys st.cache) ps)).2⟩ := by
  have hnil : freshKeys (cacheKeys st.cache) ps ≠ [] := by
    intro hc
    rw [hc] at hK
    cases hK
  show alookup (if freshKeys (cacheKeys st.cache) ps = [] then st else _).cache K = _
  rw [if_neg hnil]
  have hnone : alookup st.cache K = none :=
    (alookup_eq_none _ _).2 (freshKeys_not_known ps (cacheKeys st.cache) K hK)
  rw [alookup_append_right _ _ K hnone]
  exact alookup_map_graph _ _ K hK

/-- A `Load` that requests a key cached with an error returns a non-nil
error. -/
theorem load_errs_of_entry_err (oracle : LoaderOracle) (st : CLState) (qs : List Str)
    (K : Str) (e : CacheEntry) (hm : K ∈ qs)
    (he : alookup (cachingLoad oracle st qs).1.cache K = some e)
    (herr : e.err.isSome = true) :
    ((cachingLoad oracle st qs).2.2).isSome = true := by
  have hpair : (cachingLoad oracle st qs).2 =
      (if (qs.filterMap fun p =>
            (alookup (cachingLoad oracle st qs).1.cache p).map fun e => (p, e)).any
            (fun pe => pe.2.err.isSome) then
        (([] : List (Str × Package)), some (str "Errors when loading packages"))
      else
        ((qs.filterMap fun p =>
            (alookup (cachingLoad oracle st qs).1.cache p).map fun e => (p, e)).filterMap
          fun pe => pe.2.value.map fun v => (pe.1, v), none)) := rfl
  have hin : (K, e) ∈ qs.filterMap fun p =>
      (alookup (cachingLoad oracle st qs).1.cache p).map fun e => (p, e) :=
    List.mem_filterMap.2 ⟨K, hm, by rw [he]; rfl⟩
  have hany : (qs.filterMap fun p =>
      (alookup (cachingLoad oracle st qs).1.cache p).map fun e => (p, e)).any
        (fun pe => pe.2.err.isSome) = true :=
    List.any_eq_true.2 ⟨(K, e), hin, herr⟩
  rw [hpair, if_pos hany]
  rfl

/-- C10: when a batch's call to the underlying loader fails, every package
key first requested in that batch (`K ∈ work`) is cached bearing that error;
every subsequent `Load` requesting such a key returns a non-nil error and
does not pass the key to the underlying loader again. -/
theorem cachingLoader_error_sticky (oracle : LoaderOracle) (rss1 : List (List Str))
    (ps : List Str) (rss2 : List (List Str)) (qs : List Str) (K : Str)
    (hfresh : K ∈ freshKeys (cacheKeys (runLoads oracle rss1).cache) ps)
    (herr : (oracle (runLoads oracle rss1).calls
        (freshKeys (cacheKeys (runLoads oracle rss1).cache) ps)).2.isSome = true)
    (hq : K ∈ qs) :
    ((cachingLoad oracle (runLoads oracle (rss1 ++ ps :: rss2)) qs).2.2).isSome = true ∧
      K ∉ freshKeys (cacheKeys (runLoads oracle (rss1 ++ ps :: rss2)).cache) qs := by
  have hrun : runLoads oracle (rss1 ++ ps :: rss2) =
      rss2.foldl (fun st ps => (cachingLoad oracle st ps).1)
        ((cachingLoad oracle (runLoads oracle rss1) ps).1) := by
    unfold runLoads
    rw [List.foldl_append, List.foldl_cons]
  have h1 : alookup (cachingLoad oracle (runLoads oracle rss1) ps).1.cache K =
      some ⟨alookup (oracle (runLoads oracle rss1).calls
          (freshKeys (cacheKeys (runLoads oracle rss1).cache) ps)).1 K,
        (oracle (runLoads oracle rss1).calls
          (freshKeys (cacheKeys (runLoads oracle rss1).cache) ps)).2⟩ :=
    fresh_key_cached oracle (runLoads oracle rss1) ps K hfresh
  have h2 : alookup (runLoads oracle (rss1 ++ ps :: rss2)).cache K = some
      ⟨alookup (oracle (runLoads oracle rss1).calls
          (freshKeys (cacheKeys (runLoads oracle rss1).cache) ps)).1 K,
        (oracle (runLoads oracle rss1).calls
          (freshKeys (cacheKeys (runLoads oracle rss1).cache) ps)).2⟩ := by
    rw [hrun]
    exact cache_entry_persists_fold oracle rss2 _ K _ h1
  have h3 := cache_entry_persists oracle _ qs K _ h2
  refine ⟨load_errs_of_entry_err oracle _ qs K _ hq h3 herr, ?_⟩
  intro hcontra
  exact freshKeys_not_known qs _ K hcontra (mem_keys_of_alookup _ K _ h2)

/-- `alookup` over a key-preserving map of the values. -/
theorem alookup_map_snd {α β γ : Type} [DecidableEq α] (g : β → γ)
    (l : List (α × β)) (k : α) :
    alookup (l.map fun cs => (cs.1, g cs.2)) k = (alookup l k).map g := by
  induction l with
  | nil => rfl
  | cons kv rest ih =>
      obtain ⟨k1, v1⟩ := kv
      by_cases hk : k1 = k
      · subst hk
        simp [alookup]
      · simp [alookup, hk, ih]

/-- C6: in `MissingDeps`, for every consuming rule and every class whose
post-visibility candidate set is empty while its structurally filtered
pre-visibility candidate set is non-empty, the returned label list for that
class consists of the labels of *all* pre-visibility candidates (up to the
final ranking permutation); in particular the class does not disappear from
the result, and its consuming rule stays in the returned map. -/
theorem missingDeps_restores_previsibility (visResult : Rule → Str → Bool)
    (ranker : Label → Label → Bool) (rulesToFix : List Rule)
    (resolved : List (ClassName × List Rule)) (consRule : Rule) (cls : ClassName)
    (satRules : List Rule)
    (hmem : consRule ∈ rulesToFix)
    (hpre : alookup (candidatesForConsRule (RuleLabel consRule) (depsOf consRule) resolved) cls
      = some satRules)
    (hinvis : ∀ r ∈ satRules, visResult r consRule.PkgName = false) :
    (consRule, missingForConsRule visResult ranker consRule resolved) ∈
        MissingDeps visResult ranker rulesToFix resolved ∧
      ∃ out : List Label,
        alookup (missingForConsRule visResult ranker consRule resolved) cls = some out ∧
        out.Perm (satRules.map RuleLabel) := by
  have hvl : visibleLabels visResult consRule.PkgName satRules = satRules.map RuleLabel := by
    unfold visibleLabels
    have hfil : satRules.filter (fun r => visResult r consRule.PkgName) = [] :=
      List.filter_eq_nil_iff.2 fun r hr => by simp [hinvis r hr]
    simp [hfil]
  have hlook : alookup (missingForConsRule visResult ranker consRule resolved) cls =
      some (List.mergeSort (satRules.map RuleLabel) ranker) := by
    unfold missingForConsRule
    rw [alookup_map_snd (fun v => List.mergeSort (visibleLabels visResult consRule.PkgName v) ranker)]
    rw [hpre, Option.map_some', hvl]
  constructor
  · refine List.mem_filter.2 ⟨List.mem_map.2 ⟨consRule, hmem, rfl⟩, ?_⟩
    have hne2 : missingForConsRule visResult ranker consRule resolved ≠ [] := by
      intro hc
      rw [hc] at hlook
      simp [alookup] at hlook
    simpa using hne2
  · exact ⟨_, hlook, List.mergeSort_perm _ ranker⟩

/-- Witness for C6: one consuming rule `//x:Consumer`, one class resolved to
the single structurally valid candidate `//y:Dep`, and a visibility verdict
rejecting every pair: the candidate is restored. -/
theorem missingDeps_restores_previsibility_witness :
    (NewRule (str "java_library") (str "x") (str "Consumer") [],
        missingForConsRule (fun _ _ => false) (fun _ _ => true)
          (NewRule (str "java_library") (str "x") (str "Consumer") [])
          [(str "com.Foo", [e2Rule])]) ∈
      MissingDeps (fun _ _ => false) (fun _ _ => true)
        [NewRule (str "java_library") (str "x") (str "Consumer") []]
        [(str "com.Foo", [e2Rule])] ∧
    ∃ out : List Label,
      alookup (missingForConsRule (fun _ _ => false) (fun _ _ => true)
          (NewRule (str "java_library") (str "x") (str "Consumer") [])
          [(str "com.Foo", [e2Rule])]) (str "com.Foo") = some out ∧
      out.Perm ([e2Rule].map RuleLabel) :=
  missingDeps_restores_previsibility (fun _ _ => false) (fun _ _ => true)
    [NewRule (str "java_library") (str "x") (str "Consumer") []]
    [(str "com.Foo", [e2Rule])]
    (NewRule (str "java_library") (str "x") (str "Consumer") [])
    (str "com.Foo") [e2Rule] (by decide) (by decide) (by decide)

/-- C7: the parent map is *not* a forest.  On a third-party directory whose
single package `tp` holds two mutually exporting `java_library` rules,
`NewResolver` terminates with `parent(a) = b` and `parent(b) = a` (the
initial layer's rules are not pre-seeded into the visited set, so each gets
one back-pointer when rediscovered as the other's export), and consequently
the parent walk of `Resolver.Resolve` started at `a` finds a parent at every
step — the Go loop `for r.parent[rule] != nil` never exits. -/
theorem newResolver_parent_cycle :
    alookup cycleParent cycleRuleA = some cycleRuleB ∧
    alookup cycleParent cycleRuleB = some cycleRuleA ∧
    ∀ k : Nat, (alookup cycleParent (resolveWalk cycleParent cycleRuleA k)).isSome = true := by
  have hAB : alookup cycleParent cycleRuleA = some cycleRuleB := by decide
  have hBA : alookup cycleParent cycleRuleB = some cycleRuleA := by decide
  refine ⟨hAB, hBA, ?_⟩
  have halt : ∀ k : Nat, resolveWalk cycleParent cycleRuleA k = cycleRuleA ∨
      resolveWalk cycleParent cycleRuleA k = cycleRuleB := by
    intro k
    induction k with
    | zero => exact Or.inl rfl
    | succ k ih =>
        rcases ih with h | h
        · exact Or.inr (by simp [resolveWalk, resolveStep, h, hAB])
        · exact Or.inl (by simp [resolveWalk, resolveStep, h, hBA])
  intro k
  rcases halt k with h | h
  · rw [h, hAB]
    rfl
  · rw [h, hBA]
    rfl

/-! ### String lemmas for the label round-trip (claims C3 and C4) -/

/-- Every string starts with the empty string. -/
theorem startsWith_nil (s : Str) : startsWith s [] = true := by
  cases s <;> rfl

/-- A string starts with itself followed by anything. -/
theorem startsWith_append_self (p r : Str) : startsWith (p ++ r) p = true := by
  induction p with
  | nil => exact startsWith_nil r
  | cons c cs ih => simp [startsWith, ih]

/-- Unfolding of `LabelSplit` (zeta-expanded form used in the proofs). -/
theorem LabelSplit_eq (l : Label) :
    LabelSplit l =
      if goIndex (trimLeading l (str "//")) (str ":") = -1 then
        (trimLeading l (str "//"),
          (trimLeading l (str "//")).drop
            ((lastIndexByte (trimLeading l (str "//")) '/' + 1).toNat))
      else
        ((trimLeading l (str "//")).take
            ((goIndex (trimLeading l (str "//")) (str ":")).toNat),
          (trimLeading l (str "//")).drop
            ((goIndex (trimLeading l (str "//")) (str ":")).toNat + 1)) := rfl

/-- Trimming a leading part that is there removes exactly it. -/
theorem trimLeading_append (p r : Str) : trimLeading (p ++ r) p = r := by
  unfold trimLeading
  rw [if_pos (startsWith_append_self p r)]
  exact List.drop_left p r

/-- `firstIdx` for a single character misses exactly when the character is
absent. -/
theorem firstIdx_single_none_iff (c : Char) (s : Str) :
    firstIdx s [c] = none ↔ c ∉ s := by
  induction s with
  | nil => simp [firstIdx]
  | cons d ds ih =>
      by_cases hd : d = c
      · subst hd
        simp [firstIdx, startsWith]
      · have hsw : startsWith (d :: ds) [c] = false := by
          simp [startsWith, hd]
        simp [firstIdx, hsw, ih, hd, Ne.symm hd]

/-- `firstIdx` for a single character hits when the character is present. -/
theorem firstIdx_single_isSome_of_mem (c : Char) (s : Str) (h : c ∈ s) :
    (firstIdx s [c]).isSome = true := by
  rcases ho : firstIdx s [c] with _ | j
  · exact absurd ((firstIdx_single_none_iff c s).1 ho) (by simp [h])
  · rfl

/-- The first hit of the separator in `p ++ ':' :: n` with a colon-free `p`
is at position `p.length`. -/
theorem firstIdx_sep (p n : Str) (hc : ':' ∉ p) :
    firstIdx (p ++ ':' :: n) [':'] = some p.length := by
  induction p with
  | nil => simp [firstIdx, startsWith]
  | cons d ps ih =>
      have hd : d ≠ ':' := fun hdc => hc (hdc ▸ List.mem_cons_self d ps)
      have hsw : startsWith ((d :: ps) ++ ':' :: n) [':'] = false := by
        simp [startsWith, hd]
      rw [List.cons_append]
      unfold firstIdx
      rw [if_neg (by simpa using hsw), ih fun hm => hc (List.mem_cons_of_mem d hm)]
      rfl

/-- Bridging: a `firstIdx` hit gives the non-negative `goIndex`. -/
theorem goIndex_eq_of_firstIdx (s sub : Str) (j : Nat) (h : firstIdx s sub = some j) :
    goIndex s sub = (j : Int) := by
  unfold goIndex
  rw [h]

/-- Bridging: `goIndex` is `-1` exactly on a `firstIdx` miss. -/
theorem goIndex_eq_neg_one_iff (s sub : Str) :
    goIndex s sub = -1 ↔ firstIdx s sub = none := by
  unfold goIndex
  rcases h : firstIdx s sub with _ | j
  · simp
  · simp

/-- Bridging: `goIndex` is negative exactly on a `firstIdx` miss. -/
theorem goIndex_neg_iff (s sub : Str) : goIndex s sub < 0 ↔ firstIdx s sub = none := by
  unfold goIndex
  rcases h : firstIdx s sub with _ | j
  · simp
  · simp

/-- Nothing before the first hit: the character is not in `s.take j`. -/
theorem not_mem_take_firstIdx (c : Char) (s : Str) : ∀ j : Nat,
    firstIdx s [c] = some j → c ∉ s.take j := by
  induction s with
  | nil =>
      intro j h
      simp [firstIdx] at h
  | cons d ds ih =>
      intro j h
      unfold firstIdx at h
      by_cases hsw : startsWith (d :: ds) [c] = true
      · rw [if_pos hsw] at h
        cases h
        simp
      · rw [if_neg hsw] at h
        rcases hh : firstIdx ds [c] with _ | j1
        · rw [hh] at h
          cases h
        · rw [hh] at h
          simp only [Option.map_some'] at h
          cases h
          have hd : d ≠ c := by
            intro hdc
            subst hdc
            simp [startsWith] at hsw
          intro hm
          rcases List.mem_cons.1 (by simpa using hm) with hdc | hm2
          · exact hd hdc.symm
          · exact ih j1 hh (by simpa using hm2)

/-- Splitting `p ++ ':' :: n` at the first colon recovers `(p, n)` when `p`
is colon-free. -/
theorem take_drop_sep (p n : Str) :
    (p ++ ':' :: n).take p.length = p ∧ (p ++ ':' :: n).drop (p.length + 1) = n := by
  constructor
  · exact List.take_left p (':' :: n)
  · have h1 : (p ++ ':' :: n).drop (p.length + 1) =
        ((p ++ ':' :: n).drop p.length).drop 1 := by
      rw [List.drop_drop, Nat.add_comm]
    rw [h1, List.drop_left]
    rfl

/-- When `p` contains a colon, everything after the first colon of
`p ++ ':' :: n` still contains a colon. -/
theorem splitTail_colon (p n : Str) (hc : ':' ∈ p) :
    ':' ∈ (p ++ ':' :: n).drop ((goIndex (p ++ ':' :: n) (str ":")).toNat + 1) := by
  induction p with
  | nil => cases hc
  | cons d ps ih =>
      rw [List.cons_append]
      by_cases hd : d = ':'
      · subst hd
        have h0 : firstIdx (':' :: (ps ++ ':' :: n)) [':'] = some 0 := by
          unfold firstIdx
          rw [if_pos (by simp [startsWith])]
        rw [show (str ":") = [':'] from rfl, goIndex_eq_of_firstIdx _ _ 0 h0]
        simp
      · have hc2 : ':' ∈ ps := by
          rcases List.mem_cons.1 hc with h | h
          · exact absurd h.symm hd
          · exact h
        have hmem : ':' ∈ ps ++ ':' :: n := List.mem_append_right ps (List.mem_cons_self ':' n)
        obtain ⟨j, hj⟩ := Option.isSome_iff_exists.1 (firstIdx_single_isSome_of_mem ':' _ hmem)
        have hsw : startsWith (d :: (ps ++ ':' :: n)) [':'] = false := by
          simp [startsWith, hd]
        have hstep : firstIdx (d :: (ps ++ ':' :: n)) [':'] = some (j + 1) := by
          unfold firstIdx
          rw [if_neg (by simpa using hsw), hj]
          rfl
        rw [show (str ":") = [':'] from rfl, goIndex_eq_of_firstIdx _ _ (j + 1) hstep]
        have ihj := ih hc2
        rw [show (str ":") = [':'] from rfl, goIndex_eq_of_firstIdx _ _ j hj] at ihj
        simpa using ihj

/-- `LabelSplit` recovers the package and name parts of a parser-shaped label
whose package part is colon-free. -/
theorem LabelSplit_mk (p n : Str) (hcp : ':' ∉ p) :
    LabelSplit (if startsWith p (str "@") = true then p ++ str ":" ++ n
      else str "//" ++ p ++ str ":" ++ n) = (p, n) := by
  have hsep := firstIdx_sep p n hcp
  have htake := take_drop_sep p n
  have hassoc : p ++ str ":" ++ n = p ++ ':' :: n := by
    simp [str]
  by_cases hat : startsWith p (str "@") = true
  · rw [if_pos hat, hassoc]
    obtain ⟨p1, hp1⟩ : ∃ p1, p = '@' :: p1 := by
      cases p with
      | nil => simp [startsWith] at hat
      | cons c cs =>
          simp only [startsWith, Bool.and_eq_true, beq_iff_eq] at hat
          exact ⟨cs, by rw [hat.1]⟩
    have htrim : trimLeading (p ++ ':' :: n) (str "//") = p ++ ':' :: n := by
      unfold trimLeading
      rw [if_neg (by simp [hp1, str, startsWith])]
    rw [LabelSplit_eq, htrim, show (str ":") = [':'] from rfl,
      goIndex_eq_of_firstIdx _ _ p.length hsep]
    rw [if_neg (by omega)]
    simp only [Int.toNat_ofNat]
    rw [htake.1, htake.2]
  · rw [if_neg hat]
    have hassoc2 : str "//" ++ p ++ str ":" ++ n = str "//" ++ (p ++ ':' :: n) := by
      simp [str]
    have htrim : trimLeading (str "//" ++ (p ++ ':' :: n)) (str "//") = p ++ ':' :: n :=
      trimLeading_append (str "//") (p ++ ':' :: n)
    rw [hassoc2, LabelSplit_eq, htrim, show (str ":") = [':'] from rfl,
      goIndex_eq_of_firstIdx _ _ p.length hsep]
    rw [if_neg (by omega)]
    simp only [Int.toNat_ofNat]
    rw [htake.1, htake.2]

/-- When the package part of a parser-shaped label contains a colon, the
name part `LabelSplit` extracts contains a colon too. -/
theorem LabelSplit_mk_colon (p n : Str) (hcp : ':' ∈ p) :
    ':' ∈ (LabelSplit (if startsWith p (str "@") = true then p ++ str ":" ++ n
      else str "//" ++ p ++ str ":" ++ n)).2 := by
  have hmem : ':' ∈ p ++ ':' :: n := List.mem_append_left _ hcp
  obtain ⟨j, hj⟩ := Option.isSome_iff_exists.1 (firstIdx_single_isSome_of_mem ':' _ hmem)
  have hassoc : p ++ str ":" ++ n = p ++ ':' :: n := by
    simp [str]
  have htail := splitTail_colon p n hcp
  rw [show (str ":") = [':'] from rfl, goIndex_eq_of_firstIdx _ _ j hj] at htail
  by_cases hat : startsWith p (str "@") = true
  · rw [if_pos hat, hassoc]
    obtain ⟨p1, hp1⟩ : ∃ p1, p = '@' :: p1 := by
      cases p with
      | nil => simp [startsWith] at hat
      | cons c cs =>
          simp only [startsWith, Bool.and_eq_true, beq_iff_eq] at hat
          exact ⟨cs, by rw [hat.1]⟩
    have htrim : trimLeading (p ++ ':' :: n) (str "//") = p ++ ':' :: n := by
      unfold trimLeading
      rw [if_neg (by simp [hp1, str, startsWith])]
    rw [LabelSplit_eq, htrim, show (str ":") = [':'] from rfl,
      goIndex_eq_of_firstIdx _ _ j hj]
    rw [if_neg (by omega)]
    simpa using htail
  · rw [if_neg hat]
    have hassoc2 : str "//" ++ p ++ str ":" ++ n = str "//" ++ (p ++ ':' :: n) := by
      simp [str]
    have htrim : trimLeading (str "//" ++ (p ++ ':' :: n)) (str "//") = p ++ ':' :: n :=
      trimLeading_append (str "//") (p ++ ':' :: n)
    rw [hassoc2, LabelSplit_eq, htrim, show (str ":") = [':'] from rfl,
      goIndex_eq_of_firstIdx _ _ j hj]
    rw [if_neg (by omega)]
    simpa using htail

/-- Every label assembled by `mkParsedLabel` has the parser shape, with a
colon-free, `//`-free name and a package with at most one `//`. -/
theorem mkParsedLabel_shape (pkg name L : Str) (h : mkParsedLabel pkg name = some L) :
    L = (if startsWith pkg (str "@") = true then pkg ++ str ":" ++ name
        else str "//" ++ pkg ++ str ":" ++ name) ∧
      ':' ∉ name ∧ goCount pkg (str "//") ≤ 1 ∧ firstIdx name (str "//") = none := by
  unfold mkParsedLabel at h
  by_cases hc : goCount pkg (str "//") > 1
  · rw [if_pos hc] at h
    cases h
  · rw [if_neg hc] at h
    by_cases hn1 : goIndex name (str "//") ≠ -1
    · rw [if_pos hn1] at h
      cases h
    · rw [if_neg hn1] at h
      by_cases hn2 : goIndex name (str ":") ≠ -1
      · rw [if_pos hn2] at h
        cases h
      · rw [if_neg hn2] at h
        push_neg at hn1 hn2
        have hcn : ':' ∉ name :=
          (firstIdx_single_none_iff ':' name).1 ((goIndex_eq_neg_one_iff name (str ":")).1 hn2)
        have hslash : firstIdx name (str "//") = none :=
          (goIndex_eq_neg_one_iff name (str "//")).1 hn1
        by_cases hat : startsWith pkg (str "@") = true
        · rw [if_pos hat] at h
          exact ⟨by rw [if_pos hat]; exact (Option.some.inj h).symm, hcn, by omega, hslash⟩
        · rw [if_neg hat] at h
          exact ⟨by rw [if_neg hat]; exact (Option.some.inj h).symm, hcn, by omega, hslash⟩

/-- Every label produced by `parseAbsoluteBody` has the parser shape with a
colon-free package part as well. -/
theorem parseAbsoluteBody_shape (t L : Str) (h : parseAbsoluteBody t = some L) :
    ∃ p n, L = (if startsWith p (str "@") = true then p ++ str ":" ++ n
        else str "//" ++ p ++ str ":" ++ n) ∧
      ':' ∉ p ∧ ':' ∉ n ∧ goCount p (str "//") ≤ 1 ∧ firstIdx n (str "//") = none := by
  unfold parseAbsoluteBody at h
  by_cases hi : goIndex t (str ":") < 0
  · rw [if_pos hi] at h
    obtain ⟨hL, hcn, hcount, hsl⟩ := mkParsedLabel_shape _ _ _ h
    exact ⟨t, pathBase t, hL,
      (firstIdx_single_none_iff ':' t).1 ((goIndex_neg_iff t (str ":")).1 hi),
      hcn, hcount, hsl⟩
  · rw [if_neg hi] at h
    obtain ⟨j, hj⟩ : ∃ j, firstIdx t (str ":") = some j := by
      rcases ho : firstIdx t (str ":") with _ | j
      · exact absurd ((goIndex_neg_iff t (str ":")).2 ho) hi
      · exact ⟨j, rfl⟩
    obtain ⟨hL, hcn, hcount, hsl⟩ := mkParsedLabel_shape _ _ _ h
    refine ⟨t.take ((goIndex t (str ":")).toNat), t.drop ((goIndex t (str ":")).toNat + 1),
      hL, ?_, hcn, hcount, hsl⟩
    rw [goIndex_eq_of_firstIdx t _ j hj]
    simpa using not_mem_take_firstIdx ':' t j hj

/-- Every label returned by `ParseAbsoluteLabel` has the parser shape: a
colon-free package with at most one `//`, and a name free of `:` and `//`. -/
theorem ParseAbsoluteLabel_shape (s L : Str) (h : ParseAbsoluteLabel s = some L) :
    ∃ p n, L = (if startsWith p (str "@") = true then p ++ str ":" ++ n
        else str "//" ++ p ++ str ":" ++ n) ∧
      ':' ∉ p ∧ ':' ∉ n ∧ goCount p (str "//") ≤ 1 ∧ firstIdx n (str "//") = none := by
  unfold ParseAbsoluteLabel at h
  by_cases h1 : ¬ (startsWith s (str "//") = true ∨ startsWith s (str "@") = true)
  · rw [if_pos h1] at h
    cases h
  · rw [if_neg h1] at h
    by_cases h2 : goIndex s (str "//") < 0
    · rw [if_pos h2] at h
      cases h
    · rw [if_neg h2] at h
      exact parseAbsoluteBody_shape _ L h

/-- Every label returned by `ParseRelativeLabel` has the parser shape with a
package containing at most one `//` (the package may contain colons when the
caller-supplied package does). -/
theorem ParseRelativeLabel_shape (pkg s L : Str) (h : ParseRelativeLabel pkg s = some L) :
    ∃ p n, L = (if startsWith p (str "@") = true then p ++ str ":" ++ n
        else str "//" ++ p ++ str ":" ++ n) ∧ goCount p (str "//") ≤ 1 := by
  unfold ParseRelativeLabel at h
  by_cases habs : (startsWith s (str "//") = true ∨ startsWith s (str "@") = true)
  · rw [if_pos habs] at h
    obtain ⟨p, n, hL, _, _, hc, _⟩ := ParseAbsoluteLabel_shape s L h
    exact ⟨p, n, hL, hc⟩
  · rw [if_neg habs] at h
    by_cases hc2 : goCount pkg (str "//") > 1
    · rw [if_pos hc2] at h
      cases h
    · rw [if_neg hc2] at h
      by_cases hse : s = []
      · rw [if_pos hse] at h
        cases h
      · rw [if_neg hse] at h
        by_cases hci : goIndex s (str ":") > 0
        · rw [if_pos hci] at h
          cases h
        · rw [if_neg hci] at h
          by_cases hat : startsWith pkg (str "@") = true
          · rw [if_pos hat] at h
            exact ⟨pkg, _, by rw [if_pos hat]; exact (Option.some.inj h).symm, by omega⟩
          · rw [if_neg hat] at h
            exact ⟨pkg, _, by rw [if_neg hat]; exact (Option.some.inj h).symm, by omega⟩

/-- Re-parsing a clean name relative to its package succeeds and reassembles
the same label. -/
theorem reparse_mk (p n : Str) (hcount : goCount p (str "//") ≤ 1) (hne : n ≠ [])
    (hcn : ':' ∉ n) (h3 : startsWith n (str "//") = false)
    (h4 : startsWith n (str "@") = false) :
    ParseRelativeLabel p n =
      some (if startsWith p (str "@") = true then p ++ str ":" ++ n
        else str "//" ++ p ++ str ":" ++ n) := by
  have hci : goIndex n (str ":") = -1 :=
    (goIndex_eq_neg_one_iff n (str ":")).2 ((firstIdx_single_none_iff ':' n).2 hcn)
  have hs1 : startsWith n (str ":") = false := by
    cases n with
    | nil => rfl
    | cons c cs =>
        have hc : c ≠ ':' := fun hcc => hcn (hcc ▸ List.mem_cons_self c cs)
        simp [str, startsWith, hc]
  unfold ParseRelativeLabel
  rw [if_neg (by simp [h3, h4])]
  rw [if_neg (by omega)]
  rw [if_neg hne]
  rw [if_neg (by rw [hci]; omega)]
  rw [hs1]
  by_cases hat : startsWith p (str "@") = true
  · rw [if_pos hat, if_pos hat]
    simp
  · rw [if_neg hat, if_neg hat]
    simp

/-- Round trip for one parser-shaped label whose split name part is clean. -/
theorem roundtrip_core (p n L : Str)
    (hL : L = if startsWith p (str "@") = true then p ++ str ":" ++ n
      else str "//" ++ p ++ str ":" ++ n)
    (hcount : goCount p (str "//") ≤ 1)
    (h1 : (LabelSplit L).2 ≠ []) (h2 : ':' ∉ (LabelSplit L).2)
    (h3 : startsWith (LabelSplit L).2 (str "//") = false)
    (h4 : startsWith (LabelSplit L).2 (str "@") = false) :
    ParseRelativeLabel (LabelSplit L).1 (LabelSplit L).2 = some L := by
  by_cases hcp : ':' ∈ p
  · exact absurd (by rw [hL]; exact LabelSplit_mk_colon p n hcp) h2
  · have hs : LabelSplit L = (p, n) := by
      rw [hL]
      exact LabelSplit_mk p n hcp
    rw [hs] at h1 h2 h3 h4 ⊢
    rw [hL]
    exact reparse_mk p n hcount h1 h2 h3 h4

/-- C3 counterexample: the round trip fails as stated.  The relative input
`":a:b"` (leading colon stripped, no other colon check) parses to
`//p:a:b`; splitting gives the name part `a:b`, whose re-parse relative to
`p` is rejected ("contains a colon"), so re-parsing does not yield the label
back. -/
theorem parse_split_roundtrip_fails :
    ParseRelativeLabel (str "p") (str ":a:b") = some (str "//p:a:b") ∧
    ParseRelativeLabel (LabelSplit (str "//p:a:b")).1 (LabelSplit (str "//p:a:b")).2 = none := by
  decide

/-- C3 (amended): for every label L returned without error by
`ParseAbsoluteLabel` or `ParseRelativeLabel` *whose split name part is
non-empty, contains no colon, and does not start with `//` or `@`*,
re-parsing the name part relative to the package part yields exactly L
again.  (The excluded labels arise only from relative inputs with a leading
colon or a `//`-or-`@`-shaped name, or from package arguments containing a
colon; the counterexample shows the claim fails on them.) -/
theorem parse_split_roundtrip :
    (∀ s L, ParseAbsoluteLabel s = some L →
      (LabelSplit L).2 ≠ [] → ':' ∉ (LabelSplit L).2 →
      startsWith (LabelSplit L).2 (str "//") = false →
      startsWith (LabelSplit L).2 (str "@") = false →
      ParseRelativeLabel (LabelSplit L).1 (LabelSplit L).2 = some L) ∧
    (∀ pkg s L, ParseRelativeLabel pkg s = some L →
      (LabelSplit L).2 ≠ [] → ':' ∉ (LabelSplit L).2 →
      startsWith (LabelSplit L).2 (str "//") = false →
      startsWith (LabelSplit L).2 (str "@") = false →
      ParseRelativeLabel (LabelSplit L).1 (LabelSplit L).2 = some L) := by
  constructor
  · intro s L h h1 h2 h3 h4
    obtain ⟨p, n, hL, _, _, hcount, _⟩ := ParseAbsoluteLabel_shape s L h
    exact roundtrip_core p n L hL hcount h1 h2 h3 h4
  · intro pkg s L h h1 h2 h3 h4
    obtain ⟨p, n, hL, hcount⟩ := ParseRelativeLabel_shape pkg s L h
    exact roundtrip_core p n L hL hcount h1 h2 h3 h4

/-- Witness for C3 at `//foo:bar`: the round trip reproduces the label. -/
theorem parse_split_roundtrip_witness :
    ParseRelativeLabel (LabelSplit (str "//foo:bar")).1 (LabelSplit (str "//foo:bar")).2 =
      some (str "//foo:bar") :=
  parse_split_roundtrip.1 (str "//foo:bar") (str "//foo:bar")
    (by decide) (by decide) (by decide) (by decide) (by decide)

/-- C4 counterexample: the name-part invariant fails as stated.  The relative
input `"a//b"` parses without error to `//p:a//b`, whose name part `a//b`
contains `//` (the relative branch checks only for colons). -/
theorem label_name_invariant_fails :
    ParseRelativeLabel (str "p") (str "a//b") = some (str "//p:a//b") ∧
    goContains (LabelSplit (str "//p:a//b")).2 (str "//") = true := by
  decide

/-- C4 (amended): every label returned without error by either parser starts
with `//` or `@` (this half holds for *all* inputs); and for every label
returned by `ParseAbsoluteLabel` — hence also by `ParseRelativeLabel` on
inputs starting with `//` or `@` — the name part contains neither `:` nor
`//`.  (Labels built by the relative branch may carry `:` or `//` in their
name, as the counterexample shows.) -/
theorem label_shape_invariant :
    (∀ pkg s L, ParseRelativeLabel pkg s = some L →
      startsWith L (str "//") = true ∨ startsWith L (str "@") = true) ∧
    (∀ s L, ParseAbsoluteLabel s = some L →
      (startsWith L (str "//") = true ∨ startsWith L (str "@") = true) ∧
      ':' ∉ (LabelSplit L).2 ∧ firstIdx (LabelSplit L).2 (str "//") = none) := by
  have hstart : ∀ p n L : Str,
      L = (if startsWith p (str "@") = true then p ++ str ":" ++ n
        else str "//" ++ p ++ str ":" ++ n) →
      startsWith L (str "//") = true ∨ startsWith L (str "@") = true := by
    intro p n L hL
    by_cases hat : startsWith p (str "@") = true
    · right
      rw [hL, if_pos hat]
      obtain ⟨p1, hp1⟩ : ∃ p1, p = '@' :: p1 := by
        cases p with
        | nil => simp [startsWith] at hat
        | cons c cs =>
            simp only [startsWith, Bool.and_eq_true, beq_iff_eq] at hat
            exact ⟨cs, by rw [hat.1]⟩
      rw [hp1]
      simp [str, startsWith, startsWith_nil]
    · left
      rw [hL, if_neg hat]
      have : str "//" ++ p ++ str ":" ++ n = str "//" ++ (p ++ str ":" ++ n) := by
        simp [List.append_assoc]
      rw [this]
      exact startsWith_append_self (str "//") _
  constructor
  · intro pkg s L h
    obtain ⟨p, n, hL, _⟩ := ParseRelativeLabel_shape pkg s L h
    exact hstart p n L hL
  · intro s L h
    obtain ⟨p, n, hL, hcp, hcn, _, hsl⟩ := ParseAbsoluteLabel_shape s L h
    have hs : LabelSplit L = (p, n) := by
      rw [hL]
      exact LabelSplit_mk p n hcp
    refine ⟨hstart p n L hL, ?_, ?_⟩
    · rw [hs]
      exact hcn
    · rw [hs]
      exact hsl

/-- Witness for C4 at `//foo:bar`. -/
theorem label_shape_invariant_witness :
    (startsWith (str "//foo:bar") (str "//") = true ∨
      startsWith (str "//foo:bar") (str "@") = true) ∧
    ':' ∉ (LabelSplit (str "//foo:bar")).2 ∧
    firstIdx (LabelSplit (str "//foo:bar")).2 (str "//") = none :=
  label_shape_invariant.2 (str "//foo:bar") (str "//foo:bar") (by decide)

/-- Witness for C10: a single failing batch for key `k`; a later `Load` of
`k` returns a non-nil error without passing `k` to the underlying loader. -/
theorem cachingLoader_error_sticky_witness :
    ((cachingLoad (fun _ _ => ([], some (str "rpc failed")))
        (runLoads (fun _ _ => ([], some (str "rpc failed"))) ([] ++ [str "k"] :: []))
        [str "k"]).2.2).isSome = true ∧
      (str "k") ∉ freshKeys (cacheKeys (runLoads (fun _ _ => ([], some (str "rpc failed")))
        ([] ++ [str "k"] :: [])).cache) [str "k"] :=
  cachingLoader_error_sticky (fun _ _ => ([], some (str "rpc failed"))) [] [str "k"] []
    [str "k"] (str "k") (by decide) (by decide) (by decide)

end Jadep

-- label-parsing checks, mirroring src/jadep/bazel/bazel_test.go
example : Jadep.ParseAbsoluteLabel (Jadep.str "//foo") = some (Jadep.str "//foo:foo") := by decide
example : Jadep.ParseAbsoluteLabel (Jadep.str "//foo/bar") = some (Jadep.str "//foo/bar:bar") := by decide
example : Jadep.ParseAbsoluteLabel (Jadep.str "foo") = none := by decide
example : Jadep.ParseRelativeLabel (Jadep.str "foo") (Jadep.str ":bar") = some (Jadep.str "//foo:bar") := by decide
example : Jadep.ParseRelativeLabel (Jadep.str "dontcare") (Jadep.str "foo:bar") = none := by decide
example : Jadep.LabelSplit (Jadep.str "//foo/bar") = (Jadep.str "foo/bar", Jadep.str "bar") := by decide
example : Jadep.LabelSplit (Jadep.str "@r//p:n") = (Jadep.str "@r//p", Jadep.str "n") := by decide
example : Jadep.ParseRelativeLabel (Jadep.str "p") (Jadep.str ":a:b") = some (Jadep.str "//p:a:b") := by decide
example : Jadep.ParseRelativeLabel (Jadep.str "p") (Jadep.str "a//b") = some (Jadep.str "//p:a//b") := by decide
example : Jadep.ParseRelativeLabel (Jadep.str "@foo//bar") (Jadep.str "n") = some (Jadep.str "@foo//bar:n") := by decide
example : Jadep.ParseAbsoluteLabel (Jadep.str "@foo//bar") = some (Jadep.str "@foo//bar:bar") := by decide

-- filter sanity checks, mirroring src/filter/filter_test.go
example : Jadep.IsValidDependency ⟨Jadep.str "java_library", [], []⟩ = true := by decide
example : Jadep.IsValidDependency ⟨Jadep.str "filegroup", [], []⟩ = false := by decide
example : Jadep.IsValidDependency
    ⟨Jadep.str "java_library", Jadep.str "x",
      [(Jadep.str "tags", Jadep.AttrValue.strListVal [Jadep.str "avoid_dep"])]⟩ = false := by decide
-- the test "don't allow deprecated rules" wants false here; the code yields true
example : Jadep.IsValidDependency
    ⟨Jadep.str "java_library", Jadep.str "x",
      [(Jadep.str "deprecation", Jadep.AttrValue.strVal (Jadep.str "do not use"))]⟩ = true := by decide

-- localVisibleTo sanity checks, mirroring src/filter/filter_test.go
example : Jadep.localVisibleTo (Jadep.NewRule (Jadep.str "java_library") (Jadep.str "x") (Jadep.str "Dep") []) (Jadep.str "x") = Jadep.Tri.yes := by decide
example : Jadep.localVisibleTo
    (Jadep.NewRule (Jadep.str "java_library") (Jadep.str "x") (Jadep.str "Dep")
      [(Jadep.str "visibility", Jadep.AttrValue.strListVal [Jadep.str "//visibility:private"])])
    (Jadep.str "y") = Jadep.Tri.no := by decide
example : Jadep.localVisibleTo
    (Jadep.NewRule (Jadep.str "java_library") (Jadep.str "x") (Jadep.str "Dep")
      [(Jadep.str "visibility", Jadep.AttrValue.strListVal [Jadep.str "//visibility:public"])])
    (Jadep.str "y") = Jadep.Tri.yes := by decide
example : Jadep.localVisibleTo
    (Jadep.NewRule (Jadep.str "java_library") (Jadep.str "java/foo/bar") (Jadep.str "Dep") [])
    (Jadep.str "javatests/foo/bar") = Jadep.Tri.yes := by decide
example : Jadep.localVisibleTo
    (Jadep.NewRule (Jadep.str "java_library") (Jadep.str "y") (Jadep.str "Dep")
      [(Jadep.str "visibility", Jadep.AttrValue.strListVal [Jadep.str "//x:__subpackages__"])])
    (Jadep.str "x/subx") = Jadep.Tri.yes := by decide
example : Jadep.localVisibleTo
    (Jadep.NewRule (Jadep.str "java_library") (Jadep.str "y") (Jadep.str "Dep")
      [(Jadep.str "visibility", Jadep.AttrValue.strListVal [Jadep.str "//x:__pkg__"])])
    (Jadep.str "x") = Jadep.Tri.yes := by decide
example : Jadep.localVisibleTo
    (Jadep.NewRule (Jadep.str "java_library") (Jadep.str "y") (Jadep.str "Dep")
      [(Jadep.str "visibility", Jadep.AttrValue.strListVal [Jadep.str "//x:__pkg__"])])
    (Jadep.str "x/subx") = Jadep.Tri.unknown := by decide
-- the C5 divergence: unconditional TrimPrefix makes a rule at "x" visible to "javatests/x"
example : Jadep.localVisibleTo
    (Jadep.NewRule (Jadep.str "java_library") (Jadep.str "x") (Jadep.str "Dep") [])
    (Jadep.str "javatests/x") = Jadep.Tri.yes := by decide
-- subPackageOf checks, mirroring TestSubPackageOf
example : Jadep.subPackageOf (Jadep.str "a") (Jadep.str "a") = true := by decide
example : Jadep.subPackageOf (Jadep.str "a/b") (Jadep.str "a") = true := by decide
example : Jadep.subPackageOf (Jadep.str "ab") (Jadep.str "a") = false := by decide
example : Jadep.subPackageOf (Jadep.str "a") (Jadep.str "a/b") = false := by decide
example : Jadep.subPackageOf (Jadep.str "a") (Jadep.str "") = true := by decide
